import Mathlib

/-!
Verification of the `sigcluster` native core: the bit-parallel Hamming
kernel (`src/native/sigcluster/src/hamming.cc`), the banded LSH index
(`src/native/sigcluster/src/lsh.cc`) and the handle registry of the addon
layer (`src/native/sigcluster/src/addon.cc`).

Byte strings are modelled as `List Nat` whose elements are below 256;
machine-integer truncation is written as explicit `% 2 ^ w` where the C
code can overflow (the `uint32_t` distance accumulator, the `uint32_t`
statistics counters).
-/

namespace SigCluster

/-- Number of 1-bits among the low `w` binary digits of `n`.  Used as the
mathematical reading of a `w`-bit population count. -/
def bitCountAux : Nat → Nat → Nat
  | 0, _ => 0
  | w + 1, n => n % 2 + bitCountAux w (n / 2)

/-- Reference count of the bit positions (among the 8 bits of a byte) in
which the bytes `x` and `y` differ. -/
def byteDiffBits (x y : Nat) : Nat :=
  ((List.range 8).filter (fun i => x.testBit i ≠ y.testBit i)).length

/-- Bitwise reference definition of the Hamming distance of two byte
strings: the number of bit positions in which they differ, summed byte by
byte. -/
def hammingRef (a b : List Nat) : Nat :=
  (List.zipWith byteDiffBits a b).sum

/-- The byte-level SWAR popcount of the tail loop of `hamming_distance`
(`hamming.cc` lines 27-34); the intermediate values live in a `uint8_t`,
hence the `% 256`. -/
def swar8 (x : Nat) : Nat :=
  let x1 := ((x &&& 0x55) + ((x >>> 1) &&& 0x55)) % 256
  let x2 := ((x1 &&& 0x33) + ((x1 >>> 2) &&& 0x33)) % 256
  ((x2 &&& 0x0f) + ((x2 >>> 4) &&& 0x0f)) % 256

/-- Little-endian value of a byte string, as read by the
`reinterpret_cast<const uint64_t*>` dereference in `hamming_distance` on
the little-endian target platforms (byte `i` contributes bits
`[8i, 8i+8)`). -/
def le64 : List Nat → Nat
  | [] => 0
  | x :: xs => x + 256 * le64 xs

/-- `popcount64` of `simd_compat.h`: the population count of a 64-bit
value.  The hardware branch (`__builtin_popcountll` / `__popcnt64`)
returns exactly the Hamming weight of the 64-bit operand. -/
def popcount64 (x : Nat) : Nat :=
  bitCountAux 64 (x % 2 ^ 64)

/-- The 64-bit-chunk prefix loop of `hamming_distance` (`hamming.cc`
lines 22-24): `k` chunks of 8 bytes are XORed and popcounted. -/
def chunkLoop : List Nat → List Nat → Nat → Nat
  | _, _, 0 => 0
  | a, b, k + 1 =>
    popcount64 (le64 (a.take 8) ^^^ le64 (b.take 8)) + chunkLoop (a.drop 8) (b.drop 8) k

/-- The tail byte loop of `hamming_distance` (`hamming.cc` lines 27-34):
`xorVal` is a `uint8_t`, hence the `% 256`. -/
def byteLoop : List Nat → List Nat → Nat
  | x :: xs, y :: ys => swar8 ((x ^^^ y) % 256) + byteLoop xs ys
  | _, _ => 0

/-- `hamming_distance(a, b, len)` of `hamming.cc`: `len` is the (common)
length of the operands, `len64 = len & ~7` is the prefix length processed
in 64-bit chunks, the remaining bytes go through the byte loop.  The
accumulator `dist` is a `uint32_t`, so the total is reduced `% 2 ^ 32`
(step-wise wrap-around of the accumulator equals one final reduction). -/
def hamming_distance (a b : List Nat) : Nat :=
  let len := a.length
  let len64 := 8 * (len / 8)
  (chunkLoop a b (len / 8) + byteLoop (a.drop len64) (b.drop len64)) % 2 ^ 32

example : hamming_distance [0x00, 0x00, 0x00, 0x00] [0x00, 0x00, 0x00, 0x00] = 0 := by decide
example : hamming_distance [0xFF, 0xFF, 0xFF, 0xFF] [0x00, 0x00, 0x00, 0x00] = 32 := by decide
example :
    hamming_distance [0, 0, 0, 0, 0, 0, 0, 0, 0] [0, 0, 0, 0, 0, 0, 0, 0, 1] = 1 := by decide
example : hammingRef [0xFF, 0xFF, 0xFF, 0xFF] [0x00, 0x00, 0x00, 0x00] = 32 := by decide

/-- Abbreviation for the per-byte popcount of the XOR. -/
def f8 (x y : Nat) : Nat := bitCountAux 8 (x ^^^ y)

set_option maxRecDepth 4000 in
theorem swar8_eq : ∀ x < 256, swar8 x = bitCountAux 8 x := by decide

set_option maxRecDepth 4000 in
theorem bitCountAux_eight_testBit :
    ∀ z < 256, bitCountAux 8 z = ((List.range 8).filter (fun i => z.testBit i)).length := by
  decide

theorem byteDiffBits_eq {x y : Nat} (hx : x < 256) (hy : y < 256) :
    byteDiffBits x y = f8 x y := by
  have hxy : x ^^^ y < 256 := Nat.xor_lt_two_pow (n := 8) hx hy
  rw [f8, bitCountAux_eight_testBit _ hxy, byteDiffBits]
  congr 1
  apply List.filter_congr
  intro i _
  cases hxb : x.testBit i <;> cases hyb : y.testBit i <;>
    simp [Nat.testBit_xor, hxb, hyb]

theorem bitCountAux_le (w : Nat) : ∀ n, bitCountAux w n ≤ w := by
  induction w with
  | zero => intro n; simp [bitCountAux]
  | succ w ih =>
    intro n
    have h1 : n % 2 ≤ 1 := Nat.le_of_lt_succ (Nat.mod_lt _ (by omega))
    have h2 := ih (n / 2)
    simp only [bitCountAux]
    omega

theorem xor_le_split {k x y a b : Nat} (hx : x < 2 ^ k) (hy : y < 2 ^ k) :
    (x + 2 ^ k * a) ^^^ (y + 2 ^ k * b) = (x ^^^ y) + 2 ^ k * (a ^^^ b) := by
  apply Nat.eq_of_testBit_eq
  intro i
  have hxy : x ^^^ y < 2 ^ k := Nat.xor_lt_two_pow hx hy
  rw [Nat.add_comm x, Nat.add_comm y, Nat.add_comm (x ^^^ y)]
  simp only [Nat.testBit_xor, Nat.testBit_mul_pow_two_add _ hx,
    Nat.testBit_mul_pow_two_add _ hy, Nat.testBit_mul_pow_two_add _ hxy]
  by_cases h : i < k <;> simp [h, Nat.testBit_xor]

theorem bitCountAux_split {k w x a : Nat} (hx : x < 2 ^ k) :
    bitCountAux (k + w) (x + 2 ^ k * a) = bitCountAux k x + bitCountAux w a := by
  induction k generalizing x with
  | zero =>
    have : x = 0 := by omega
    simp [this, bitCountAux]
  | succ k ih =>
    have hpow : 2 ^ (k + 1) * a = 2 * (2 ^ k * a) := by ring
    have hc : 0 < 2 ^ k := Nat.pos_pow_of_pos _ (by omega)
    have hmod : (x + 2 ^ (k + 1) * a) % 2 = x % 2 := by
      rw [hpow]; omega
    have hdiv : (x + 2 ^ (k + 1) * a) / 2 = x / 2 + 2 ^ k * a := by
      rw [hpow]; omega
    have hx2 : x / 2 < 2 ^ k := by
      have : x < 2 * 2 ^ k := by
        have := hx; rw [Nat.pow_succ] at this; omega
      omega
    have hstep : k + 1 + w = (k + w) + 1 := by omega
    rw [hstep]
    simp only [bitCountAux, hmod, hdiv, ih hx2]
    omega

theorem le64_lt {l : List Nat} (h : ∀ x ∈ l, x < 256) :
    le64 l < 2 ^ (8 * l.length) := by
  induction l with
  | nil => simp [le64]
  | cons x xs ih =>
    have hx : x < 256 := h x (by simp)
    have ht : le64 xs < 2 ^ (8 * xs.length) := ih (fun y hy => h y (by simp [hy]))
    have hpow : 2 ^ (8 * (x :: xs).length) = 256 * 2 ^ (8 * xs.length) := by
      simp only [List.length_cons]
      rw [show 8 * (xs.length + 1) = 8 * xs.length + 8 by ring, Nat.pow_add]
      ring
    rw [le64, hpow]
    omega

theorem le64_xor_bitCount :
    ∀ (as bs : List Nat), as.length = bs.length →
      (∀ x ∈ as, x < 256) → (∀ x ∈ bs, x < 256) →
      bitCountAux (8 * as.length) (le64 as ^^^ le64 bs) =
        (List.zipWith f8 as bs).sum := by
  intro as
  induction as with
  | nil =>
    intro bs hlen _ _
    have : bs = [] := List.eq_nil_of_length_eq_zero (by simpa using hlen.symm)
    simp [this, le64, bitCountAux]
  | cons x xs ih =>
    intro bs hlen ha hb
    match bs, hlen with
    | y :: ys, hlen =>
      have hx : x < 256 := ha x (by simp)
      have hy : y < 256 := hb y (by simp)
      have hlen' : xs.length = ys.length := by simpa using hlen
      have hsplit := xor_le_split (k := 8) (a := le64 xs) (b := le64 ys) hx hy
      have hxy : x ^^^ y < 2 ^ 8 := Nat.xor_lt_two_pow hx hy
      have hlen8 : 8 * (x :: xs).length = 8 + 8 * xs.length := by
        simp [List.length_cons]; ring
      rw [le64, le64, show (256 : Nat) = 2 ^ 8 by norm_num, hsplit, hlen8,
        bitCountAux_split hxy, List.zipWith_cons_cons, List.sum_cons,
        ih ys hlen' (fun z hz => ha z (by simp [hz])) (fun z hz => hb z (by simp [hz]))]
      rfl

theorem popcount64_chunk {as bs : List Nat} (h8 : as.length = 8) (hlen : bs.length = 8)
    (ha : ∀ x ∈ as, x < 256) (hb : ∀ x ∈ bs, x < 256) :
    popcount64 (le64 as ^^^ le64 bs) = (List.zipWith f8 as bs).sum := by
  have hxa : le64 as < 2 ^ 64 := by
    have := le64_lt ha; rw [h8] at this; simpa using this
  have hxb : le64 bs < 2 ^ 64 := by
    have := le64_lt hb; rw [hlen] at this; simpa using this
  have hxor : le64 as ^^^ le64 bs < 2 ^ 64 := Nat.xor_lt_two_pow hxa hxb
  rw [popcount64, Nat.mod_eq_of_lt hxor,
    show (64 : Nat) = 8 * as.length by rw [h8],
    le64_xor_bitCount as bs (by rw [h8, hlen]) ha hb]

theorem chunkLoop_eq :
    ∀ (k : Nat) (a b : List Nat), 8 * k ≤ a.length → a.length = b.length →
      (∀ x ∈ a, x < 256) → (∀ x ∈ b, x < 256) →
      chunkLoop a b k =
        (List.zipWith f8 (a.take (8 * k)) (b.take (8 * k))).sum := by
  intro k
  induction k with
  | zero => intro a b _ _ _ _; simp [chunkLoop]
  | succ k ih =>
    intro a b hk hlen ha hb
    have hk8 : 8 ≤ a.length := by omega
    have hta : (a.take 8).length = 8 := by simp; omega
    have htb : (b.take 8).length = 8 := by simp; omega
    have hchunk := popcount64_chunk hta htb
      (fun x hx => ha x (List.mem_of_mem_take hx))
      (fun x hx => hb x (List.mem_of_mem_take hx))
    have hrest := ih (a.drop 8) (b.drop 8) (by simp; omega) (by simp [hlen])
      (fun x hx => ha x (List.mem_of_mem_drop hx))
      (fun x hx => hb x (List.mem_of_mem_drop hx))
    have htake : 8 * (k + 1) = 8 + 8 * k := by ring
    rw [chunkLoop, hchunk, hrest, htake, List.take_add, List.take_add,
      List.zipWith_append _ _ _ _ _ (by rw [hta, htb]), List.sum_append]

theorem byteLoop_eq :
    ∀ (as bs : List Nat), as.length = bs.length →
      (∀ x ∈ as, x < 256) → (∀ x ∈ bs, x < 256) →
      byteLoop as bs = (List.zipWith f8 as bs).sum := by
  intro as
  induction as with
  | nil =>
    intro bs hlen _ _
    have : bs = [] := List.eq_nil_of_length_eq_zero (by simpa using hlen.symm)
    simp [this, byteLoop]
  | cons x xs ih =>
    intro bs hlen ha hb
    match bs, hlen with
    | y :: ys, hlen =>
      have hx : x < 256 := ha x (by simp)
      have hy : y < 256 := hb y (by simp)
      have hxy : x ^^^ y < 256 := Nat.xor_lt_two_pow (n := 8) hx hy
      rw [byteLoop, Nat.mod_eq_of_lt hxy, swar8_eq _ hxy,
        ih ys (by simpa using hlen) (fun z hz => ha z (by simp [hz]))
          (fun z hz => hb z (by simp [hz]))]
      rfl

theorem hammingRef_eq_f8 :
    ∀ (as bs : List Nat), (∀ x ∈ as, x < 256) → (∀ x ∈ bs, x < 256) →
      hammingRef as bs = (List.zipWith f8 as bs).sum := by
  intro as
  induction as with
  | nil => intro bs _ _; simp [hammingRef]
  | cons x xs ih =>
    intro bs ha hb
    cases bs with
    | nil => simp [hammingRef]
    | cons y ys =>
      have := ih ys (fun z hz => ha z (by simp [hz])) (fun z hz => hb z (by simp [hz]))
      simp only [hammingRef, List.zipWith_cons_cons, List.sum_cons] at this ⊢
      rw [byteDiffBits_eq (ha x (by simp)) (hb y (by simp)), this]

theorem byteDiffBits_le (x y : Nat) : byteDiffBits x y ≤ 8 := by
  have : ((List.range 8).filter (fun t => x.testBit t ≠ y.testBit t)).length ≤
      (List.range 8).length := List.length_filter_le _ _
  simpa [byteDiffBits] using this

theorem hammingRef_le : ∀ (a b : List Nat), hammingRef a b ≤ 8 * a.length := by
  intro a
  induction a with
  | nil => intro b; simp [hammingRef]
  | cons x xs ih =>
    intro b
    cases b with
    | nil => simp [hammingRef]
    | cons y ys =>
      have h1 := byteDiffBits_le x y
      have h2 := ih ys
      simp only [hammingRef, List.zipWith_cons_cons, List.sum_cons, List.length_cons] at h2 ⊢
      omega

/-- The body of `hamming_distance` before the `uint32_t` reduction equals
the bitwise reference. -/
theorem hamming_distance_core {a b : List Nat} (hlen : a.length = b.length)
    (ha : ∀ x ∈ a, x < 256) (hb : ∀ x ∈ b, x < 256) :
    chunkLoop a b (a.length / 8) +
      byteLoop (a.drop (8 * (a.length / 8))) (b.drop (8 * (a.length / 8))) =
      hammingRef a b := by
  set n := 8 * (a.length / 8) with hn
  have hna : n ≤ a.length := by omega
  have hchu : chunkLoop a b (a.length / 8) =
      (List.zipWith f8 (a.take n) (b.take n)).sum :=
    chunkLoop_eq _ a b (by omega) hlen ha hb
  have htl : byteLoop (a.drop n) (b.drop n) =
      (List.zipWith f8 (a.drop n) (b.drop n)).sum :=
    byteLoop_eq _ _ (by simp [hlen]) (fun x hx => ha x (List.mem_of_mem_drop hx))
      (fun x hx => hb x (List.mem_of_mem_drop hx))
  rw [hchu, htl, hammingRef_eq_f8 a b ha hb, ← List.take_zipWith, ← List.drop_zipWith,
    ← List.sum_append, List.take_append_drop]

/-- C1 (amended with the 32-bit bound): for equal-length byte strings with
`8 · len < 2 ^ 32`, `hamming_distance` — the 64-bit-chunk prefix path plus
the byte-level tail loop — returns exactly the number of bit positions in
which the operands differ, and that value lies in `[0, 8 · len]`. -/
theorem spec_C1_hamming_correct {a b : List Nat} (hlen : a.length = b.length)
    (ha : ∀ x ∈ a, x < 256) (hb : ∀ x ∈ b, x < 256)
    (hsmall : 8 * a.length < 2 ^ 32) :
    hamming_distance a b = hammingRef a b ∧ hammingRef a b ≤ 8 * a.length := by
  have hcore := hamming_distance_core hlen ha hb
  have hle := hammingRef_le a b
  refine ⟨?_, hle⟩
  show (chunkLoop a b (a.length / 8) +
      byteLoop (a.drop (8 * (a.length / 8))) (b.drop (8 * (a.length / 8)))) % 2 ^ 32 =
    hammingRef a b
  rw [hcore, Nat.mod_eq_of_lt (by omega)]

/-- Witness for C1 at a concrete 9-byte input exercising both the chunk
path and the tail loop. -/
theorem spec_C1_hamming_correct_witness :
    hamming_distance [255, 255, 255, 255, 255, 255, 255, 255, 1]
        [0, 0, 0, 0, 0, 0, 0, 0, 0] =
      hammingRef [255, 255, 255, 255, 255, 255, 255, 255, 1]
        [0, 0, 0, 0, 0, 0, 0, 0, 0] ∧
    hammingRef [255, 255, 255, 255, 255, 255, 255, 255, 1]
        [0, 0, 0, 0, 0, 0, 0, 0, 0] ≤
      8 * ([255, 255, 255, 255, 255, 255, 255, 255, 1] : List Nat).length :=
  spec_C1_hamming_correct (by decide) (by decide) (by decide) (by decide)

theorem chunkLoop_allOnes :
    ∀ k, chunkLoop (List.replicate (8 * k) 255) (List.replicate (8 * k) 0) k = 64 * k := by
  intro k
  induction k with
  | zero => simp [chunkLoop]
  | succ k ih =>
    have hpop : popcount64 (le64 (List.replicate 8 255) ^^^ le64 (List.replicate 8 0)) = 64 := by
      decide
    have hmin : min 8 (8 * (k + 1)) = 8 := by omega
    have hsub : 8 * (k + 1) - 8 = 8 * k := by omega
    rw [chunkLoop, List.take_replicate, List.take_replicate, List.drop_replicate,
      List.drop_replicate, hmin, hsub, hpop, ih]
    ring

theorem hamming_distance_allOnes (k : Nat) :
    hamming_distance (List.replicate (8 * k) 255) (List.replicate (8 * k) 0) =
      (64 * k) % 2 ^ 32 := by
  have h1 : 8 * k / 8 = k := by omega
  show (chunkLoop (List.replicate (8 * k) 255) (List.replicate (8 * k) 0)
      ((List.replicate (8 * k) (255 : Nat)).length / 8) +
    byteLoop
      ((List.replicate (8 * k) (255 : Nat)).drop
        (8 * ((List.replicate (8 * k) (255 : Nat)).length / 8)))
      ((List.replicate (8 * k) (0 : Nat)).drop
        (8 * ((List.replicate (8 * k) (255 : Nat)).length / 8)))) % 2 ^ 32 =
    (64 * k) % 2 ^ 32
  rw [List.length_replicate, h1, List.drop_replicate, List.drop_replicate,
    Nat.sub_self, List.replicate_zero, chunkLoop_allOnes k]
  rfl

/-- Counterexample to C1 as stated: at `len = 2 ^ 29` bytes (all-ones
versus all-zeros) the number of differing bit positions is `2 ^ 32`, but
the `uint32_t` accumulator of `hamming_distance` wraps and the function
returns 0, not the number of differing bits. -/
theorem spec_C1_counterexample :
    hamming_distance (List.replicate (2 ^ 29) 255) (List.replicate (2 ^ 29) 0) ≠
        hammingRef (List.replicate (2 ^ 29) 255) (List.replicate (2 ^ 29) 0) ∧
      hamming_distance (List.replicate (2 ^ 29) 255) (List.replicate (2 ^ 29) 0) = 0 ∧
      hammingRef (List.replicate (2 ^ 29) 255) (List.replicate (2 ^ 29) 0) = 2 ^ 32 := by
  have hdist : hamming_distance (List.replicate (2 ^ 29) 255)
      (List.replicate (2 ^ 29) 0) = 0 := by
    have h := hamming_distance_allOnes (2 ^ 26)
    have he : (8 : Nat) * 2 ^ 26 = 2 ^ 29 := by norm_num
    rw [he] at h
    rw [h]
    norm_num
  have href : hammingRef (List.replicate (2 ^ 29) 255)
      (List.replicate (2 ^ 29) 0) = 2 ^ 32 := by
    rw [hammingRef, List.zipWith_replicate', List.sum_replicate,
      show byteDiffBits 255 0 = 8 from by decide, smul_eq_mul]
    norm_num
  exact ⟨by rw [hdist, href]; norm_num, hdist, href⟩

/-! ### `find_similar_pairs` (`hamming.cc` lines 126-147, single-threaded path)

The inner `j` loop over the signatures after position `i`, with the
`count < max_pairs` guard checked before every iteration, and the outer
`i` loop with the same guard.  `acc` plays the role of the output buffers
together with `count = acc.length`. -/

/-- Inner loop of `find_similar_pairs`: `si` is `signatures + i*sig_len`,
`rest` the signatures at indices `j, j+1, …`. -/
def fspInner (si : List Nat) (thr maxP : Nat) :
    List (List Nat) → Nat → Nat → List (Nat × Nat × Nat) → List (Nat × Nat × Nat)
  | [], _, _, acc => acc
  | sj :: rest, i, j, acc =>
    if maxP ≤ acc.length then acc
    else
      let d := hamming_distance si sj
      if d ≤ thr then fspInner si thr maxP rest i (j + 1) (acc ++ [(i, j, d)])
      else fspInner si thr maxP rest i (j + 1) acc

/-- Outer loop of `find_similar_pairs`. -/
def fspOuter (thr maxP : Nat) :
    List (List Nat) → Nat → List (Nat × Nat × Nat) → List (Nat × Nat × Nat)
  | [], _, acc => acc
  | si :: rest, i, acc =>
    if maxP ≤ acc.length then acc
    else fspOuter thr maxP rest (i + 1) (fspInner si thr maxP rest i (i + 1) acc)

/-- `find_similar_pairs(signatures, n, sig_len, threshold, …, max_pairs)`:
emits `(i, j, dist)` records in lexicographic order until `max_pairs`
records have been produced. -/
def find_similar_pairs (sigs : List (List Nat)) (thr maxP : Nat) :
    List (Nat × Nat × Nat) :=
  fspOuter thr maxP sigs 0 []

/-- The full lexicographic list of qualifying records of the inner loop,
without the capacity guard. -/
def qualInner (si : List Nat) (thr : Nat) :
    List (List Nat) → Nat → Nat → List (Nat × Nat × Nat)
  | [], _, _ => []
  | sj :: rest, i, j =>
    (if hamming_distance si sj ≤ thr then [(i, j, hamming_distance si sj)] else []) ++
      qualInner si thr rest i (j + 1)

/-- The full lexicographic list of qualifying records: all `(i, j, dist)`
with `i < j` and `dist ≤ thr`, in lexicographic `(i, j)` order. -/
def qualPairs (thr : Nat) : List (List Nat) → Nat → List (Nat × Nat × Nat)
  | [], _ => []
  | si :: rest, i => qualInner si thr rest i (i + 1) ++ qualPairs thr rest (i + 1)

example :
    find_similar_pairs [[0], [0], [7]] 3 3 = [(0, 1, 0), (0, 2, 3), (1, 2, 3)] := by decide
example : find_similar_pairs [[0], [0], [7]] 0 3 = [(0, 1, 0)] := by decide
example : find_similar_pairs [[0], [0], [7]] 3 2 = [(0, 1, 0), (0, 2, 3)] := by decide
example : qualPairs 3 [[0], [0], [7]] 0 = [(0, 1, 0), (0, 2, 3), (1, 2, 3)] := by decide

theorem take_append_take {α : Type} (l m : List α) (n : Nat) :
    (l.take n ++ m).take n = (l ++ m).take n := by
  rw [List.take_append_eq_append_take, List.take_append_eq_append_take,
    List.take_take, Nat.min_self, List.length_take]
  congr 2
  omega

theorem fspInner_eq_take (si : List Nat) (thr maxP : Nat) :
    ∀ (rest : List (List Nat)) (i j : Nat) (acc : List (Nat × Nat × Nat)),
      acc.length ≤ maxP →
      fspInner si thr maxP rest i j acc = (acc ++ qualInner si thr rest i j).take maxP := by
  intro rest
  induction rest with
  | nil =>
    intro i j acc hacc
    simp [fspInner, qualInner, List.take_of_length_le hacc]
  | cons sj rest ih =>
    intro i j acc hacc
    rw [fspInner, qualInner]
    by_cases hfull : maxP ≤ acc.length
    · have hlen : acc.length = maxP := by omega
      rw [if_pos hfull, ← hlen, List.take_left]  -- take acc.length (acc ++ l) = acc
    · rw [if_neg hfull]
      by_cases hd : hamming_distance si sj ≤ thr
      · rw [if_pos hd, if_pos hd, ih i (j + 1) _ (by simp; omega), List.append_assoc]
      · rw [if_neg hd, if_neg hd, ih i (j + 1) acc hacc]
        simp

theorem fspOuter_eq_take (thr maxP : Nat) :
    ∀ (sigs : List (List Nat)) (i : Nat) (acc : List (Nat × Nat × Nat)),
      acc.length ≤ maxP →
      fspOuter thr maxP sigs i acc = (acc ++ qualPairs thr sigs i).take maxP := by
  intro sigs
  induction sigs with
  | nil =>
    intro i acc hacc
    simp [fspOuter, qualPairs, List.take_of_length_le hacc]
  | cons si rest ih =>
    intro i acc hacc
    rw [fspOuter, qualPairs]
    by_cases hfull : maxP ≤ acc.length
    · have hlen : acc.length = maxP := by omega
      rw [if_pos hfull, ← hlen, List.take_left]
    · rw [if_neg hfull, fspInner_eq_take si thr maxP rest i (i + 1) acc hacc,
        ih (i + 1) _ (by simp [List.length_take]),
        take_append_take, List.append_assoc]

theorem find_similar_pairs_eq_take (sigs : List (List Nat)) (thr maxP : Nat) :
    find_similar_pairs sigs thr maxP = (qualPairs thr sigs 0).take maxP := by
  rw [find_similar_pairs, fspOuter_eq_take thr maxP sigs 0 [] (by simp)]
  simp

theorem mem_qualInner (si : List Nat) (thr : Nat) :
    ∀ (rest : List (List Nat)) (j i : Nat) (p : Nat × Nat × Nat),
      p ∈ qualInner si thr rest i j ↔
        ∃ k, k < rest.length ∧
          hamming_distance si (rest.getD k []) ≤ thr ∧
          p = (i, j + k, hamming_distance si (rest.getD k [])) := by
  intro rest
  induction rest with
  | nil => intro j i p; simp [qualInner]
  | cons sj rest ih =>
    intro j i p
    rw [qualInner, List.mem_append, ih (j + 1) i p]
    constructor
    · rintro (h | ⟨k, hk, hle, rfl⟩)
      · by_cases hd : hamming_distance si sj ≤ thr
        · rw [if_pos hd, List.mem_singleton] at h
          refine ⟨0, by simp, by simpa using hd, by simpa using h⟩
        · rw [if_neg hd] at h
          simp at h
      · refine ⟨k + 1, by simp [List.length_cons]; omega, by simpa using hle, ?_⟩
        have harith : j + 1 + k = j + (k + 1) := by omega
        simp [List.getD_cons_succ, harith]
    · rintro ⟨k, hk, hle, rfl⟩
      cases k with
      | zero =>
        left
        rw [if_pos (by simpa using hle)]
        simp
      | succ k =>
        right
        refine ⟨k, by simp at hk; omega, by simpa using hle, ?_⟩
        have harith : j + 1 + k = j + (k + 1) := by omega
        simp [List.getD_cons_succ, harith]

theorem mem_qualPairs (thr : Nat) :
    ∀ (sigs : List (List Nat)) (i0 : Nat) (p : Nat × Nat × Nat),
      p ∈ qualPairs thr sigs i0 ↔
        ∃ a b, a < b ∧ b < sigs.length ∧
          hamming_distance (sigs.getD a []) (sigs.getD b []) ≤ thr ∧
          p = (i0 + a, i0 + b, hamming_distance (sigs.getD a []) (sigs.getD b [])) := by
  intro sigs
  induction sigs with
  | nil => intro i0 p; simp [qualPairs]
  | cons si rest ih =>
    intro i0 p
    rw [qualPairs, List.mem_append, mem_qualInner, ih (i0 + 1) p]
    constructor
    · rintro (⟨k, hk, hle, rfl⟩ | ⟨a, b, hab, hb, hle, rfl⟩)
      · refine ⟨0, k + 1, by omega, by simp [List.length_cons]; omega, by simpa using hle, ?_⟩
        have harith : i0 + 1 + k = i0 + (k + 1) := by omega
        simp [List.getD_cons_zero, List.getD_cons_succ, harith]
      · refine ⟨a + 1, b + 1, by omega, by simp [List.length_cons]; omega,
          by simpa using hle, ?_⟩
        have h1 : i0 + 1 + a = i0 + (a + 1) := by omega
        have h2 : i0 + 1 + b = i0 + (b + 1) := by omega
        simp [List.getD_cons_succ, h1, h2]
    · rintro ⟨a, b, hab, hb, hle, rfl⟩
      match a, b, hab with
      | 0, b + 1, _ =>
        left
        refine ⟨b, by simp at hb; omega, by simpa using hle, ?_⟩
        have harith : i0 + (b + 1) = i0 + 1 + b := by omega
        simp [List.getD_cons_zero, List.getD_cons_succ, harith]
      | a + 1, b + 1, hab =>
        right
        refine ⟨a, b, by omega, by simp at hb; omega, by simpa using hle, ?_⟩
        have h1 : i0 + (a + 1) = i0 + 1 + a := by omega
        have h2 : i0 + (b + 1) = i0 + 1 + b := by omega
        simp [List.getD_cons_succ, h1, h2]

/-- Strict lexicographic order on the `(i, j)` key of an emitted record. -/
def keyLt (p q : Nat × Nat × Nat) : Prop :=
  p.1 < q.1 ∨ (p.1 = q.1 ∧ p.2.1 < q.2.1)

theorem pairwise_qualInner (si : List Nat) (thr : Nat) :
    ∀ (rest : List (List Nat)) (j i : Nat),
      List.Pairwise keyLt (qualInner si thr rest i j) := by
  intro rest
  induction rest with
  | nil => intro j i; simp [qualInner]
  | cons sj rest ih =>
    intro j i
    rw [qualInner, List.pairwise_append]
    refine ⟨?_, ih (j + 1) i, ?_⟩
    · by_cases hd : hamming_distance si sj ≤ thr
      · rw [if_pos hd]; simp
      · rw [if_neg hd]; simp
    · intro p hp q hq
      have hp' : p = (i, j, hamming_distance si sj) := by
        by_cases hd : hamming_distance si sj ≤ thr
        · rw [if_pos hd, List.mem_singleton] at hp; exact hp
        · rw [if_neg hd] at hp; simp at hp
      obtain ⟨k, -, -, rfl⟩ := (mem_qualInner si thr rest (j + 1) i q).1 hq
      right
      constructor
      · rw [hp']
      · rw [hp']; simp; omega

theorem pairwise_qualPairs (thr : Nat) :
    ∀ (sigs : List (List Nat)) (i0 : Nat),
      List.Pairwise keyLt (qualPairs thr sigs i0) := by
  intro sigs
  induction sigs with
  | nil => intro i0; simp [qualPairs]
  | cons si rest ih =>
    intro i0
    rw [qualPairs, List.pairwise_append]
    refine ⟨pairwise_qualInner si thr rest (i0 + 1) i0, ih (i0 + 1), ?_⟩
    intro p hp q hq
    obtain ⟨k, -, -, rfl⟩ := (mem_qualInner si thr rest (i0 + 1) i0 p).1 hp
    obtain ⟨a, b, -, -, -, rfl⟩ := (mem_qualPairs thr rest (i0 + 1) q).1 hq
    left
    simp
    omega

theorem nodup_qualPairs (thr : Nat) (sigs : List (List Nat)) (i0 : Nat) :
    (qualPairs thr sigs i0).Nodup := by
  refine (pairwise_qualPairs thr sigs i0).imp ?_
  intro p q hpq
  rcases hpq with h | ⟨h1, h2⟩
  · intro he; rw [he] at h; omega
  · intro he; rw [he] at h2; omega

theorem count_eq_one_of_mem_nodup {α : Type} [BEq α] [LawfulBEq α] :
    ∀ {l : List α} {a : α}, l.Nodup → a ∈ l → l.count a = 1 := by
  intro l
  induction l with
  | nil => intro a _ h; simp at h
  | cons x xs ih =>
    intro a hn hm
    rcases List.mem_cons.1 hm with rfl | hm'
    · rw [List.count_cons_self, List.count_eq_zero_of_not_mem (List.nodup_cons.1 hn).1]
    · have hne : a ≠ x := by rintro rfl; exact (List.nodup_cons.1 hn).1 hm'
      rw [List.count_cons_of_ne hne, ih (List.nodup_cons.1 hn).2 hm']

/-- C2: every record emitted by the single-threaded `find_similar_pairs`
loop satisfies `i < j`, `dist = hamming_distance(S[i], S[j])` and
`dist ≤ threshold`; if the number of qualifying pairs is at most
`maxPairs`, every qualifying pair is emitted exactly once, otherwise
exactly `maxPairs` records are emitted. -/
theorem spec_C2_find_similar_pairs (sigs : List (List Nat)) (len thr maxP : Nat)
    (hlen : ∀ s ∈ sigs, s.length = len) :
    (∀ i j d, (i, j, d) ∈ find_similar_pairs sigs thr maxP →
        i < j ∧ j < sigs.length ∧
        d = hamming_distance (sigs.getD i []) (sigs.getD j []) ∧ d ≤ thr) ∧
    ((qualPairs thr sigs 0).length ≤ maxP →
      ∀ i j, i < j → j < sigs.length →
        hamming_distance (sigs.getD i []) (sigs.getD j []) ≤ thr →
        (find_similar_pairs sigs thr maxP).count
          (i, j, hamming_distance (sigs.getD i []) (sigs.getD j [])) = 1) ∧
    (maxP < (qualPairs thr sigs 0).length →
      (find_similar_pairs sigs thr maxP).length = maxP) := by
  rw [find_similar_pairs_eq_take]
  refine ⟨?_, ?_, ?_⟩
  · intro i j d hmem
    have hq := List.mem_of_mem_take hmem
    obtain ⟨a, b, hab, hb, hle, heq⟩ := (mem_qualPairs thr sigs 0 _).1 hq
    simp only [Nat.zero_add, Prod.mk.injEq] at heq
    obtain ⟨rfl, rfl, rfl⟩ := heq
    exact ⟨hab, hb, rfl, hle⟩
  · intro hcap i j hij hj hthr
    rw [List.take_of_length_le hcap]
    have hmem : (i, j, hamming_distance (sigs.getD i []) (sigs.getD j [])) ∈
        qualPairs thr sigs 0 := by
      rw [mem_qualPairs]
      exact ⟨i, j, hij, hj, hthr, by simp⟩
    exact count_eq_one_of_mem_nodup (nodup_qualPairs thr sigs 0) hmem
  · intro hcap
    rw [List.length_take]
    omega

/-- Witness for C2 at the concrete scenario `[A, A, B]` with
`hamming(A, B) = 3` and threshold 3. -/
theorem spec_C2_find_similar_pairs_witness :
    (∀ i j d, (i, j, d) ∈ find_similar_pairs [[0], [0], [7]] 3 3 →
        i < j ∧ j < ([[0], [0], [7]] : List (List Nat)).length ∧
        d = hamming_distance ([[0], [0], [7]].getD i []) ([[0], [0], [7]].getD j []) ∧
        d ≤ 3) ∧
    ((qualPairs 3 [[0], [0], [7]] 0).length ≤ 3 →
      ∀ i j, i < j → j < ([[0], [0], [7]] : List (List Nat)).length →
        hamming_distance ([[0], [0], [7]].getD i []) ([[0], [0], [7]].getD j []) ≤ 3 →
        (find_similar_pairs [[0], [0], [7]] 3 3).count
          (i, j, hamming_distance ([[0], [0], [7]].getD i []) ([[0], [0], [7]].getD j [])) =
          1) ∧
    (3 < (qualPairs 3 [[0], [0], [7]] 0).length →
      (find_similar_pairs [[0], [0], [7]] 3 3).length = 3) :=
  spec_C2_find_similar_pairs [[0], [0], [7]] 1 3 3 (by decide)

/-! ### The banded LSH index (`lsh.cc`)

`std::unordered_map<uint64_t, std::vector<uint32_t>>` band buckets are
modelled as association lists in key-insertion order (`operator[]`
appends a fresh key with an empty posting list); `std::unordered_set` is
modelled as a first-seen-order deduplicated list.  These are concrete
refinements of the unspecified container iteration orders; all verified
claims are insensitive to those orders. -/

/-- One band's bucket map: band-hash keys with their posting lists. -/
abbrev Bucket := List (Nat × List Nat)

/-- `LSHIndex` state: `numBands_`, `bitsPerBand_` and `buckets_`
(`bytesPerBand_` is a pure function of `bitsPerBand_`, recomputed on
use). -/
structure LSHIndex where
  numBands : Nat
  bitsPerBand : Nat
  buckets : List Bucket
  deriving DecidableEq

/-- `bytesPerBand_ = (bitsPerBand + 7) / 8` (constructor of `LSHIndex`). -/
def bytesPerBand (w : Nat) : Nat := (w + 7) / 8

/-- `requiredBytes = (numBands * bitsPerBand + 7) / 8` as recomputed in
`add` and `findCandidates`. -/
def requiredBytes (numB w : Nat) : Nat := (numB * w + 7) / 8

/-- `byteOffset = bandIndex * bitsPerBand / 8` in `extractBandHash`. -/
def bandByteOffset (w b : Nat) : Nat := b * w / 8

/-- `bytesToRead = min(bytesPerBand_, 8)` in `extractBandHash`. -/
def bandBytesToRead (w : Nat) : Nat := min (bytesPerBand w) 8

/-- `LSHIndex` constructor: `B` empty per-band bucket maps. -/
def mkLSHIndex (numB w : Nat) : LSHIndex :=
  ⟨numB, w, List.replicate numB []⟩

/-- `LSHIndex::extractBandHash`: reads `bytesToRead` bytes starting at
`byteOffset`, assembles them little-endian (`hash |= byte << (i*8)`), and
masks to the low `bitsPerBand_` bits when `bitsPerBand_ < 64`. -/
def LSHIndex.extractBandHash (σ : LSHIndex) (sig : List Nat) (b : Nat) : Nat :=
  let byteOffset := bandByteOffset σ.bitsPerBand b
  let hash := (List.range (bandBytesToRead σ.bitsPerBand)).foldl
    (fun h i => h ||| (sig.getD (byteOffset + i) 0) <<< (8 * i)) 0
  if σ.bitsPerBand < 64 then hash &&& (2 ^ σ.bitsPerBand - 1) else hash

/-- `buckets_[b][bandHash].push_back(id)`: append `id` to the posting
list at key `h`, default-constructing the posting list when the key is
absent (`operator[]` semantics). -/
def updBucket : Bucket → Nat → Nat → Bucket
  | [], h, id => [(h, [id])]
  | (k, ids) :: rest, h, id =>
    if k = h then (k, ids ++ [id]) :: rest else (k, ids) :: updBucket rest h id

/-- `bucket.find(hash)`: the posting list at key `h`, if present. -/
def bucketFind : Bucket → Nat → Option (List Nat)
  | [], _ => none
  | (k, ids) :: rest, h => if k = h then some ids else bucketFind rest h

/-- `LSHIndex::add`: no-op when the signature is shorter than
`requiredBytes`; otherwise appends `id` to `buckets_[b][hash]` for every
band `b`. -/
def LSHIndex.add (σ : LSHIndex) (id : Nat) (sig : List Nat) : LSHIndex :=
  if sig.length < requiredBytes σ.numBands σ.bitsPerBand then σ
  else
    { σ with
      buckets := (List.range σ.numBands).foldl
        (fun bks b => bks.set b (updBucket (bks.getD b []) (σ.extractBandHash sig b) id))
        σ.buckets }

/-- `candidates.insert(id)` on the `std::unordered_set`, modelled in
first-seen order. -/
def insertNew (acc : List Nat) (id : Nat) : List Nat :=
  if id ∈ acc then acc else acc ++ [id]

/-- The per-band body of `LSHIndex::findCandidates`. -/
def candStep (σ : LSHIndex) (sig : List Nat) (acc : List Nat) (b : Nat) : List Nat :=
  match bucketFind (σ.buckets.getD b []) (σ.extractBandHash sig b) with
  | some ids => ids.foldl insertNew acc
  | none => acc

/-- `LSHIndex::findCandidates`: empty when the signature is shorter than
`requiredBytes`; otherwise the union over all bands of the posting list
at the probe's band-hash. -/
def LSHIndex.findCandidates (σ : LSHIndex) (sig : List Nat) : List Nat :=
  if sig.length < requiredBytes σ.numBands σ.bitsPerBand then []
  else (List.range σ.numBands).foldl (candStep σ sig) []

/-- The per-candidate verification body of `LSHIndex::querySimilar`:
skip out-of-store ids, compare over `min(signatureBytes, store[id].size())`
bytes, keep the pair when the distance is within threshold. -/
def queryStep (sig : List Nat) (store : List (List Nat)) (thr : Nat)
    (res : List (Nat × Nat)) (id : Nat) : List (Nat × Nat) :=
  if id < store.length then
    let c := store.getD id []
    let m := min sig.length c.length
    let d := hamming_distance (sig.take m) (c.take m)
    if d ≤ thr then res ++ [(id, d)] else res
  else res

/-- Stable insertion into a list sorted ascending by distance. -/
def insertByDist (p : Nat × Nat) : List (Nat × Nat) → List (Nat × Nat)
  | [] => [p]
  | q :: rest => if p.2 < q.2 then p :: q :: rest else q :: insertByDist p rest

/-- The `std::sort` by ascending distance at the end of `querySimilar`
(tie order is unspecified in the source; this is one concrete order). -/
def sortByDist (l : List (Nat × Nat)) : List (Nat × Nat) :=
  l.foldr insertByDist []

/-- `LSHIndex::querySimilar`: LSH candidates, exact verification against
the store, and a final sort ascending by distance. -/
def LSHIndex.querySimilar (σ : LSHIndex) (sig : List Nat)
    (allSignatures : List (List Nat)) (threshold : Nat) : List (Nat × Nat) :=
  sortByDist ((σ.findCandidates sig).foldl (queryStep sig allSignatures threshold) [])

/-- `LSHIndex::clear`: empties every band's bucket map in place. -/
def LSHIndex.clear (σ : LSHIndex) : LSHIndex :=
  { σ with buckets := σ.buckets.map (fun _ => []) }

/-- `LSHIndex::Stats`.  `avgBucketSize` is a `double` in the source and is
omitted from the model (floating point); no verified claim mentions it. -/
structure Stats where
  numSignatures : Nat
  numBands : Nat
  bitsPerBand : Nat
  totalBuckets : Nat
  maxBucketSize : Nat
  deriving DecidableEq

/-- `LSHIndex::getStats`: the `uint32_t` counters truncate every
`size()` with `% 2 ^ 32` and accumulate mod `2 ^ 32`; `numSignatures` is
the sum of posting-list lengths in band 0 only (0 when there are no
bands). -/
def LSHIndex.getStats (σ : LSHIndex) : Stats :=
  { numSignatures :=
      match σ.buckets with
      | [] => 0
      | b0 :: _ => ((b0.map (fun kv => kv.2.length % 2 ^ 32)).sum) % 2 ^ 32
    numBands := σ.numBands
    bitsPerBand := σ.bitsPerBand
    totalBuckets := ((σ.buckets.map (fun bk => bk.length % 2 ^ 32)).sum) % 2 ^ 32
    maxBucketSize :=
      σ.buckets.foldl (fun m bk => bk.foldl (fun m2 kv => max m2 (kv.2.length % 2 ^ 32)) m) 0 }

/-- Sum of posting-list lengths in band `b`. -/
def bandSum (σ : LSHIndex) (b : Nat) : Nat :=
  ((σ.buckets.getD b []).map (fun kv => kv.2.length)).sum

example :
    (mkLSHIndex 1 8).add 0 [5] =
      ⟨1, 8, [[(5, [0])]]⟩ := by decide
example : ((mkLSHIndex 1 8).add 0 [5]).findCandidates [5] = [0] := by decide
example : ((mkLSHIndex 1 8).add 0 [5]).querySimilar [5] [[5]] 0 = [(0, 0)] := by decide
example : (((mkLSHIndex 2 16).add 0 [1, 2, 3, 4]).add 1 [1, 2, 9, 9]).getStats.numSignatures
    = 2 := by decide

/-- C5: a signature strictly shorter than `requiredBytes` makes `add` a
no-op (the index state is returned unchanged) and makes `findCandidates`
return the empty set; neither operation signals an error (both are total
functions here, as in the source, which simply returns early). -/
theorem spec_C5_short_signature (σ : LSHIndex) (id : Nat) (sig : List Nat)
    (hshort : sig.length < requiredBytes σ.numBands σ.bitsPerBand) :
    σ.add id sig = σ ∧ σ.findCandidates sig = [] := by
  constructor
  · rw [LSHIndex.add, if_pos hshort]
  · rw [LSHIndex.findCandidates, if_pos hshort]

/-- Witness for C5: a 2-byte signature against a `B = 2, W = 16` index
(`requiredBytes = 4`). -/
theorem spec_C5_short_signature_witness :
    (mkLSHIndex 2 16).add 7 [1, 2] = mkLSHIndex 2 16 ∧
      (mkLSHIndex 2 16).findCandidates [1, 2] = [] :=
  spec_C5_short_signature (mkLSHIndex 2 16) 7 [1, 2] (by decide)

theorem getD_lt_256 {s : List Nat} (hs : ∀ x ∈ s, x < 256) (n : Nat) :
    s.getD n 0 < 256 := by
  by_cases h : n < s.length
  · rw [List.getD_eq_getElem _ _ h]
    exact hs _ (List.getElem_mem h)
  · rw [List.getD_eq_default _ _ (by omega)]
    omega

theorem foldl_or_lt (s : List Nat) (off : Nat) (hs : ∀ x ∈ s, x < 256) :
    ∀ (L : List Nat), (∀ i ∈ L, 8 * i + 8 ≤ 64) →
      ∀ h, h < 2 ^ 64 →
        L.foldl (fun h i => h ||| (s.getD (off + i) 0) <<< (8 * i)) h < 2 ^ 64 := by
  intro L
  induction L with
  | nil => intro _ h hh; simpa using hh
  | cons i L ih =>
    intro hL h hh
    simp only [List.foldl_cons]
    apply ih (fun j hj => hL j (by simp [hj]))
    apply Nat.or_lt_two_pow hh
    have hi64 : 8 * i + 8 ≤ 64 := hL i (by simp)
    calc s.getD (off + i) 0 <<< (8 * i) = s.getD (off + i) 0 * 2 ^ (8 * i) :=
          Nat.shiftLeft_eq _ _
      _ < 2 ^ 8 * 2 ^ (8 * i) :=
          (Nat.mul_lt_mul_right (Nat.pos_pow_of_pos _ (by omega))).mpr (getD_lt_256 hs _)
      _ = 2 ^ (8 + 8 * i) := by rw [Nat.pow_add]
      _ ≤ 2 ^ 64 := Nat.pow_le_pow_right (by omega) (by omega)

theorem foldl_window_congr (s t : List Nat) (off : Nat) :
    ∀ (L : List Nat), (∀ i ∈ L, s.getD (off + i) 0 = t.getD (off + i) 0) →
      ∀ h, L.foldl (fun h i => h ||| (s.getD (off + i) 0) <<< (8 * i)) h =
        L.foldl (fun h i => h ||| (t.getD (off + i) 0) <<< (8 * i)) h := by
  intro L
  induction L with
  | nil => intro _ h; rfl
  | cons i L ih =>
    intro hL h
    simp only [List.foldl_cons]
    rw [hL i (by simp)]
    exact ih (fun j hj => hL j (by simp [hj])) _

/-- C9: for `b < B` and `W ∈ [1, 64]`, `extractBandHash` reads only the
bytes at offsets `⌊b·W/8⌋ … ⌊b·W/8⌋ + min(⌈W/8⌉, 8) - 1`, all strictly
below `requiredBytes = ⌈B·W/8⌉` (so the read never goes out of bounds on
a signature of at least `requiredBytes` bytes), and the result is below
`2 ^ W`. -/
theorem spec_C9_extractBandHash (numB w b : Nat) (bks : List Bucket) (s t : List Nat)
    (hb : b < numB) (hW1 : 1 ≤ w) (hW2 : w ≤ 64) (hs : ∀ x ∈ s, x < 256) :
    (∀ i, i < bandBytesToRead w → bandByteOffset w b + i < requiredBytes numB w) ∧
    ((∀ k, bandByteOffset w b ≤ k → k < bandByteOffset w b + bandBytesToRead w →
        s.getD k 0 = t.getD k 0) →
      LSHIndex.extractBandHash ⟨numB, w, bks⟩ s b =
        LSHIndex.extractBandHash ⟨numB, w, bks⟩ t b) ∧
    LSHIndex.extractBandHash ⟨numB, w, bks⟩ s b < 2 ^ w := by
  have hbw : b * w + w ≤ numB * w := by
    have h1 : (b + 1) * w ≤ numB * w := Nat.mul_le_mul_right w hb
    calc b * w + w = (b + 1) * w := by ring
      _ ≤ numB * w := h1
  refine ⟨?_, ?_, ?_⟩
  · intro i hi
    rw [bandBytesToRead, bytesPerBand] at hi
    rw [bandByteOffset, requiredBytes]
    omega
  · intro hwin
    have hfold := foldl_window_congr s t (bandByteOffset w b)
      (List.range (bandBytesToRead w))
      (fun i hi => hwin (bandByteOffset w b + i) (by omega)
        (by have := List.mem_range.1 hi; omega)) 0
    simp only [LSHIndex.extractBandHash]
    rw [hfold]
  · have hlt64 : (List.range (bandBytesToRead w)).foldl
        (fun h i => h ||| (s.getD (bandByteOffset w b + i) 0) <<< (8 * i)) 0 < 2 ^ 64 := by
      apply foldl_or_lt s _ hs _ ?_ 0 (by norm_num)
      intro i hi
      have h1 := List.mem_range.1 hi
      rw [bandBytesToRead, bytesPerBand] at h1
      omega
    simp only [LSHIndex.extractBandHash]
    by_cases hw : w < 64
    · rw [if_pos hw]
      have h1 : (List.range (bandBytesToRead w)).foldl
          (fun h i => h ||| (s.getD (bandByteOffset w b + i) 0) <<< (8 * i)) 0 &&&
          (2 ^ w - 1) ≤ 2 ^ w - 1 := Nat.and_le_right
      have h2 : 0 < 2 ^ w := Nat.pos_pow_of_pos _ (by omega)
      omega
    · rw [if_neg hw]
      have hw64 : w = 64 := by omega
      subst hw64
      exact hlt64

/-- Witness for C9 at `B = 32, W = 16, b = 31` (the defaults' last band)
on a 64-byte signature. -/
theorem spec_C9_extractBandHash_witness :
    (∀ i, i < bandBytesToRead 16 → bandByteOffset 16 31 + i < requiredBytes 32 16) ∧
    ((∀ k, bandByteOffset 16 31 ≤ k → k < bandByteOffset 16 31 + bandBytesToRead 16 →
        (List.replicate 64 (9 : Nat)).getD k 0 = (List.replicate 64 (9 : Nat)).getD k 0) →
      LSHIndex.extractBandHash ⟨32, 16, []⟩ (List.replicate 64 9) 31 =
        LSHIndex.extractBandHash ⟨32, 16, []⟩ (List.replicate 64 9) 31) ∧
    LSHIndex.extractBandHash ⟨32, 16, []⟩ (List.replicate 64 9) 31 < 2 ^ 16 :=
  spec_C9_extractBandHash 32 16 31 [] (List.replicate 64 9) (List.replicate 64 9)
    (by decide) (by decide) (by decide) (by decide)

theorem perm_insertByDist (p : Nat × Nat) :
    ∀ (l : List (Nat × Nat)), (insertByDist p l).Perm (p :: l) := by
  intro l
  induction l with
  | nil => simp [insertByDist]
  | cons q rest ih =>
    rw [insertByDist]
    by_cases hlt : p.2 < q.2
    · rw [if_pos hlt]
    · rw [if_neg hlt]
      exact (ih.cons q).trans (List.Perm.swap p q rest)

theorem perm_sortByDist (l : List (Nat × Nat)) : (sortByDist l).Perm l := by
  induction l with
  | nil => simp [sortByDist]
  | cons p rest ih =>
    rw [sortByDist, List.foldr_cons]
    exact (perm_insertByDist p _).trans (ih.cons p)

theorem mem_foldl_queryStep (sig : List Nat) (store : List (List Nat)) (thr : Nat) :
    ∀ (cands : List Nat) (res : List (Nat × Nat)) (p : Nat × Nat),
      p ∈ cands.foldl (queryStep sig store thr) res ↔
        p ∈ res ∨ ∃ id, id ∈ cands ∧ id < store.length ∧
          hamming_distance (sig.take (min sig.length (store.getD id []).length))
              ((store.getD id []).take (min sig.length (store.getD id []).length)) ≤ thr ∧
          p = (id, hamming_distance (sig.take (min sig.length (store.getD id []).length))
              ((store.getD id []).take (min sig.length (store.getD id []).length))) := by
  intro cands
  induction cands with
  | nil => intro res p; simp
  | cons c rest ih =>
    intro res p
    rw [List.foldl_cons, ih]
    constructor
    · rintro (hres | ⟨id, hid, hlt, hle, rfl⟩)
      · rw [queryStep] at hres
        by_cases hc : c < store.length
        · rw [if_pos hc] at hres
          by_cases hd : hamming_distance
              (sig.take (min sig.length (store.getD c []).length))
              ((store.getD c []).take (min sig.length (store.getD c []).length)) ≤ thr
          · rw [if_pos hd] at hres
            rcases List.mem_append.1 hres with h | h
            · exact Or.inl h
            · rw [List.mem_singleton] at h
              exact Or.inr ⟨c, by simp, hc, hd, h⟩
          · rw [if_neg hd] at hres
            exact Or.inl hres
        · rw [if_neg hc] at hres
          exact Or.inl hres
      · exact Or.inr ⟨id, by simp [hid], hlt, hle, rfl⟩
    · rintro (hres | ⟨id, hid, hlt, hle, rfl⟩)
      · left
        rw [queryStep]
        by_cases hc : c < store.length
        · rw [if_pos hc]
          by_cases hd : hamming_distance
              (sig.take (min sig.length (store.getD c []).length))
              ((store.getD c []).take (min sig.length (store.getD c []).length)) ≤ thr
          · rw [if_pos hd]
            exact List.mem_append.2 (Or.inl hres)
          · rw [if_neg hd]; exact hres
        · rw [if_neg hc]; exact hres
      · rcases List.mem_cons.1 hid with rfl | hid'
        · left
          rw [queryStep, if_pos hlt, if_pos hle]
          exact List.mem_append.2 (Or.inr (List.mem_singleton.2 rfl))
        · exact Or.inr ⟨id, hid', hlt, hle, rfl⟩

/-- C3 (LSH soundness): every `(id, dist)` returned by `querySimilar`
names a stored signature (`id < store.length`), `dist` equals the Hamming
distance between the probe and `store[id]` computed over
`min(probeBytes, len(store[id]))` bytes, and `dist ≤ threshold`. -/
theorem spec_C3_querySimilar_sound (σ : LSHIndex) (sig : List Nat)
    (store : List (List Nat)) (thr : Nat) (id d : Nat)
    (hmem : (id, d) ∈ σ.querySimilar sig store thr) :
    id < store.length ∧
    d = hamming_distance (sig.take (min sig.length (store.getD id []).length))
        ((store.getD id []).take (min sig.length (store.getD id []).length)) ∧
    d ≤ thr := by
  rw [LSHIndex.querySimilar] at hmem
  have hmem' := (perm_sortByDist _).mem_iff.1 hmem
  rw [mem_foldl_queryStep] at hmem'
  rcases hmem' with h | ⟨id', -, hlt, hle, heq⟩
  · simp at h
  · rw [Prod.mk.injEq] at heq
    obtain ⟨rfl, rfl⟩ := heq
    exact ⟨hlt, rfl, hle⟩

/-- Witness for C3: a one-band one-byte index holding `[5]` queried with
`[5]` at threshold 0 returns `(0, 0)`. -/
theorem spec_C3_querySimilar_sound_witness :
    0 < ([[5]] : List (List Nat)).length ∧
    0 = hamming_distance
        (([5] : List Nat).take (min ([5] : List Nat).length (([[5]] : List (List Nat)).getD 0 []).length))
        ((([[5]] : List (List Nat)).getD 0 []).take
          (min ([5] : List Nat).length (([[5]] : List (List Nat)).getD 0 []).length)) ∧
    0 ≤ 0 :=
  spec_C3_querySimilar_sound ((mkLSHIndex 1 8).add 0 [5]) [5] [[5]] 0 0 0 (by decide)

/-! ### Reachable index states and the per-band posting count -/

/-- The two mutating operations of `LSHIndex`. -/
inductive LSHOp where
  | addOp (id : Nat) (sig : List Nat)
  | clearOp
  deriving DecidableEq

/-- Apply one operation. -/
def applyOp (σ : LSHIndex) : LSHOp → LSHIndex
  | .addOp id sig => σ.add id sig
  | .clearOp => σ.clear

/-- Apply a sequence of operations in order. -/
def applyOps (σ : LSHIndex) (ops : List LSHOp) : LSHIndex :=
  ops.foldl applyOp σ

/-- Number of accepted adds since construction or the last clear,
starting from `n` already accepted. -/
def acceptedFrom (numB w : Nat) (ops : List LSHOp) (n : Nat) : Nat :=
  ops.foldl
    (fun n op =>
      match op with
      | .addOp _ sig => if sig.length < requiredBytes numB w then n else n + 1
      | .clearOp => 0) n

theorem foldl_updBands_getD (id : Nat) (hash : Nat → Nat) :
    ∀ (L : List Nat) (bks : List Bucket) (b : Nat), L.Nodup → b < bks.length →
      (L.foldl (fun bs b' => bs.set b' (updBucket (bs.getD b' []) (hash b') id)) bks).getD
          b [] =
        if b ∈ L then updBucket (bks.getD b []) (hash b) id else bks.getD b [] := by
  intro L
  induction L with
  | nil => intro bks b _ _; simp
  | cons b' L ih =>
    intro bks b hnd hb
    rw [List.foldl_cons,
      ih _ b (List.nodup_cons.1 hnd).2 (by rw [List.length_set]; exact hb)]
    by_cases hbb : b = b'
    · subst hbb
      have hnotin : b ∉ L := (List.nodup_cons.1 hnd).1
      rw [if_neg hnotin, if_pos (by simp)]
      rw [List.getD_eq_getElem _ _ (by rw [List.length_set]; exact hb),
        List.getElem_set_self]
    · have hget : (bks.set b' (updBucket (bks.getD b' []) (hash b') id)).getD b [] =
          bks.getD b [] := by
        by_cases hb' : b' < bks.length
        · rw [List.getD_eq_getElem _ _ (by rw [List.length_set]; exact hb),
            List.getElem_set_ne (by omega), ← List.getD_eq_getElem _ _ hb]
        · rw [List.set_eq_of_length_le (by omega)]
      rw [hget]
      by_cases hmem : b ∈ L
      · rw [if_pos hmem, if_pos (by simp [hmem])]
      · rw [if_neg hmem, if_neg (by simp [hbb, hmem])]

theorem foldl_updBands_length (id : Nat) (hash : Nat → Nat) :
    ∀ (L : List Nat) (bks : List Bucket),
      (L.foldl (fun bs b' => bs.set b' (updBucket (bs.getD b' []) (hash b') id)) bks).length =
        bks.length := by
  intro L
  induction L with
  | nil => intro bks; rfl
  | cons b' L ih =>
    intro bks
    rw [List.foldl_cons, ih, List.length_set]

theorem updBucket_sum (h id : Nat) :
    ∀ (bk : Bucket),
      ((updBucket bk h id).map (fun kv => kv.2.length)).sum =
        ((bk.map (fun kv => kv.2.length)).sum) + 1 := by
  intro bk
  induction bk with
  | nil => simp [updBucket]
  | cons kv rest ih =>
    obtain ⟨k, ids⟩ := kv
    rw [updBucket]
    by_cases hk : k = h
    · rw [if_pos hk]
      simp
      omega
    · rw [if_neg hk]
      simp only [List.map_cons, List.sum_cons, ih]
      omega

theorem add_numBands (σ : LSHIndex) (id : Nat) (sig : List Nat) :
    (σ.add id sig).numBands = σ.numBands ∧
      (σ.add id sig).bitsPerBand = σ.bitsPerBand ∧
      (σ.add id sig).buckets.length = σ.buckets.length := by
  rw [LSHIndex.add]
  by_cases hshort : sig.length < requiredBytes σ.numBands σ.bitsPerBand
  · rw [if_pos hshort]; exact ⟨rfl, rfl, rfl⟩
  · rw [if_neg hshort]
    exact ⟨rfl, rfl, foldl_updBands_length _ _ _ _⟩

theorem bandSum_add (σ : LSHIndex) (id : Nat) (sig : List Nat) (b : Nat)
    (hb : b < σ.numBands) (hlen : σ.buckets.length = σ.numBands) :
    bandSum (σ.add id sig) b =
      if sig.length < requiredBytes σ.numBands σ.bitsPerBand then bandSum σ b
      else bandSum σ b + 1 := by
  rw [LSHIndex.add]
  by_cases hshort : sig.length < requiredBytes σ.numBands σ.bitsPerBand
  · rw [if_pos hshort, if_pos hshort]
  · rw [if_neg hshort, if_neg hshort]
    rw [bandSum, bandSum]
    show ((((List.range σ.numBands).foldl
        (fun bks b' => bks.set b' (updBucket (bks.getD b' []) (σ.extractBandHash sig b') id))
        σ.buckets).getD b []).map (fun kv : Nat × List Nat => kv.2.length)).sum = _
    rw [foldl_updBands_getD id _ (List.range σ.numBands) σ.buckets b
      (List.nodup_range _) (by omega), if_pos (List.mem_range.2 hb), updBucket_sum]

theorem bandSum_clear (σ : LSHIndex) (b : Nat) (hb : b < σ.buckets.length) :
    bandSum σ.clear b = 0 := by
  rw [bandSum, LSHIndex.clear]
  show (((σ.buckets.map (fun _ => [])).getD b []).map
      (fun kv : Nat × List Nat => kv.2.length)).sum = 0
  rw [List.getD_eq_getElem _ _ (by simpa using hb), List.getElem_map]
  simp

theorem acceptedFrom_cons_add (numB w id : Nat) (sig : List Nat) (ops : List LSHOp)
    (n : Nat) :
    acceptedFrom numB w (.addOp id sig :: ops) n =
      acceptedFrom numB w ops (if sig.length < requiredBytes numB w then n else n + 1) :=
  rfl

theorem acceptedFrom_cons_clear (numB w : Nat) (ops : List LSHOp) (n : Nat) :
    acceptedFrom numB w (.clearOp :: ops) n = acceptedFrom numB w ops 0 :=
  rfl

theorem bandSum_invariant_aux (numB w : Nat) :
    ∀ (ops : List LSHOp) (σ : LSHIndex) (n : Nat),
      σ.numBands = numB → σ.bitsPerBand = w → σ.buckets.length = numB →
      (∀ b, b < numB → bandSum σ b = n) →
      (applyOps σ ops).numBands = numB ∧
        (applyOps σ ops).bitsPerBand = w ∧
        (applyOps σ ops).buckets.length = numB ∧
        (∀ b, b < numB → bandSum (applyOps σ ops) b = acceptedFrom numB w ops n) := by
  intro ops
  induction ops with
  | nil =>
    intro σ n h1 h2 h3 h4
    exact ⟨h1, h2, h3, fun b hb => h4 b hb⟩
  | cons op ops ih =>
    intro σ n h1 h2 h3 h4
    match op with
    | .addOp id sig =>
      have hstruct := add_numBands σ id sig
      have hband : ∀ b, b < numB →
          bandSum (σ.add id sig) b =
            if sig.length < requiredBytes numB w then n else n + 1 := by
        intro b hb
        rw [bandSum_add σ id sig b (by omega) (by omega), h1, h2, h4 b hb]
      by_cases hshort : sig.length < requiredBytes numB w
      · have := ih (σ.add id sig) n (by omega) (by omega) (by omega)
          (fun b hb => by rw [hband b hb, if_pos hshort])
        refine ⟨this.1, this.2.1, this.2.2.1, fun b hb => ?_⟩
        rw [acceptedFrom_cons_add, if_pos hshort]
        exact this.2.2.2 b hb
      · have := ih (σ.add id sig) (n + 1) (by omega) (by omega) (by omega)
          (fun b hb => by rw [hband b hb, if_neg hshort])
        refine ⟨this.1, this.2.1, this.2.2.1, fun b hb => ?_⟩
        rw [acceptedFrom_cons_add, if_neg hshort]
        exact this.2.2.2 b hb
    | .clearOp =>
      have hlen : σ.clear.buckets.length = numB := by
        rw [LSHIndex.clear]
        simpa using h3
      have := ih σ.clear 0 (by rw [LSHIndex.clear]; exact h1)
        (by rw [LSHIndex.clear]; exact h2) hlen
        (fun b hb => bandSum_clear σ b (by omega))
      exact ⟨this.1, this.2.1, this.2.2.1, fun b hb => this.2.2.2 b hb⟩

/-- C10: in every reachable index state, every band `b < B` holds the
same total number of posting-list entries, namely the number of accepted
adds since construction or the last clear. -/
theorem spec_C10_band_balance (numB w : Nat) (ops : List LSHOp) (b : Nat)
    (hb : b < numB) :
    bandSum (applyOps (mkLSHIndex numB w) ops) b = acceptedFrom numB w ops 0 := by
  have h := bandSum_invariant_aux numB w ops (mkLSHIndex numB w) 0 rfl rfl
    (by rw [mkLSHIndex]; simp)
    (fun b hb => by
      rw [bandSum, mkLSHIndex]
      show (((List.replicate numB []).getD b []).map
          (fun kv : Nat × List Nat => kv.2.length)).sum = 0
      rw [List.getD_eq_getElem _ _ (by simpa using hb)]
      simp)
  exact h.2.2.2 b hb

/-- Witness for C10: two adds (one accepted, one too short) and a clear,
band 0 of a 2-band index. -/
theorem spec_C10_band_balance_witness :
    bandSum (applyOps (mkLSHIndex 2 16)
        [.addOp 0 [1, 2, 3, 4], .addOp 1 [9], .addOp 2 [5, 6, 7, 8]]) 0 =
      acceptedFrom 2 16 [.addOp 0 [1, 2, 3, 4], .addOp 1 [9], .addOp 2 [5, 6, 7, 8]] 0 :=
  spec_C10_band_balance 2 16 [.addOp 0 [1, 2, 3, 4], .addOp 1 [9], .addOp 2 [5, 6, 7, 8]]
    0 (by decide)

theorem acceptedFrom_all_long (numB w : Nat) :
    ∀ (l : List (Nat × List Nat)) (n : Nat),
      (∀ p ∈ l, requiredBytes numB w ≤ p.2.length) →
      acceptedFrom numB w (l.map (fun p => LSHOp.addOp p.1 p.2)) n = n + l.length := by
  intro l
  induction l with
  | nil => intro n _; simp [acceptedFrom]
  | cons p rest ih =>
    intro n hlong
    rw [List.map_cons, acceptedFrom_cons_add,
      if_neg (by have := hlong p (by simp); omega),
      ih (n + 1) (fun q hq => hlong q (by simp [hq]))]
    simp [List.length_cons]
    omega

/-- C7: after `k` adds of sufficiently long signatures on a fresh index
with at least one band, `getStats().numSignatures` — the sum of
posting-list lengths in band 0 only — equals `k` (each accepted add
contributes exactly one entry to band 0). -/
theorem spec_C7_stats_numSignatures (numB w : Nat) (hB : 0 < numB)
    (l : List (Nat × List Nat))
    (hlong : ∀ p ∈ l, requiredBytes numB w ≤ p.2.length)
    (hsmall : l.length < 2 ^ 32) :
    (applyOps (mkLSHIndex numB w)
        (l.map (fun p => LSHOp.addOp p.1 p.2))).getStats.numSignatures = l.length := by
  set ops := l.map (fun p => LSHOp.addOp p.1 p.2) with hops
  have haux := bandSum_invariant_aux numB w ops (mkLSHIndex numB w) 0 rfl rfl
    (by rw [mkLSHIndex]; simp)
    (fun b hb => by
      rw [bandSum, mkLSHIndex]
      show (((List.replicate numB []).getD b []).map
          (fun kv : Nat × List Nat => kv.2.length)).sum = 0
      rw [List.getD_eq_getElem _ _ (by simpa using hb)]
      simp)
  have hband := haux.2.2.2 0 hB
  have hacc : acceptedFrom numB w ops 0 = l.length := by
    rw [hops, acceptedFrom_all_long numB w l 0 hlong]
    omega
  cases hcase : (applyOps (mkLSHIndex numB w) ops).buckets with
  | nil =>
    exfalso
    have hlen := haux.2.2.1
    rw [hcase] at hlen
    simp at hlen
    omega
  | cons b0 rest =>
    have hb0 : bandSum (applyOps (mkLSHIndex numB w) ops) 0 =
        (b0.map (fun kv : Nat × List Nat => kv.2.length)).sum := by
      rw [bandSum, hcase]
      rfl
    have hsum : (b0.map (fun kv : Nat × List Nat => kv.2.length)).sum = l.length := by
      rw [← hb0, hband, hacc]
    have hmap : b0.map (fun kv : Nat × List Nat => kv.2.length % 2 ^ 32) =
        b0.map (fun kv : Nat × List Nat => kv.2.length) := by
      apply List.map_congr_left
      intro kv hkv
      have hlekv : kv.2.length ≤ (b0.map (fun kv : Nat × List Nat => kv.2.length)).sum :=
        List.single_le_sum (fun x _ => Nat.zero_le x) _ (List.mem_map_of_mem _ hkv)
      rw [Nat.mod_eq_of_lt (by omega)]
    simp only [LSHIndex.getStats]
    rw [hcase]
    show ((b0.map (fun kv : Nat × List Nat => kv.2.length % 2 ^ 32)).sum) % 2 ^ 32 = l.length
    rw [hmap, hsum, Nat.mod_eq_of_lt hsmall]

/-- Witness for C7: two 4-byte adds on a fresh `B = 2, W = 16` index. -/
theorem spec_C7_stats_numSignatures_witness :
    (applyOps (mkLSHIndex 2 16)
        (([(0, [1, 2, 3, 4]), (1, [5, 6, 7, 8])] : List (Nat × List Nat)).map
          (fun p => LSHOp.addOp p.1 p.2))).getStats.numSignatures =
      ([(0, [1, 2, 3, 4]), (1, [5, 6, 7, 8])] : List (Nat × List Nat)).length :=
  spec_C7_stats_numSignatures 2 16 (by decide) [(0, [1, 2, 3, 4]), (1, [5, 6, 7, 8])]
    (by decide) (by decide)

theorem applyOps_cons (σ : LSHIndex) (op : LSHOp) (ops : List LSHOp) :
    applyOps σ (op :: ops) = applyOps (applyOp σ op) ops := rfl

theorem extractBandHash_congr (σ₁ σ₂ : LSHIndex) (sig : List Nat) (b : Nat)
    (hw : σ₁.bitsPerBand = σ₂.bitsPerBand) :
    σ₁.extractBandHash sig b = σ₂.extractBandHash sig b := by
  rw [LSHIndex.extractBandHash, LSHIndex.extractBandHash, hw]

theorem extractBandHash_repeat (ids : List Nat) :
    LSHIndex.extractBandHash ⟨1, 8, [[(0, ids)]]⟩ [0] 0 = 0 := by
  rw [extractBandHash_congr ⟨1, 8, [[(0, ids)]]⟩ ⟨1, 8, []⟩ [0] 0 rfl]
  decide

theorem add_repeat_step (ids : List Nat) :
    LSHIndex.add ⟨1, 8, [[(0, ids)]]⟩ 0 [0] = ⟨1, 8, [[(0, ids ++ [0])]]⟩ := by
  have hcond : ¬(([0] : List Nat).length <
      requiredBytes (LSHIndex.mk 1 8 [[(0, ids)]]).numBands
        (LSHIndex.mk 1 8 [[(0, ids)]]).bitsPerBand) := by
    show ¬(([0] : List Nat).length < requiredBytes 1 8)
    decide
  rw [LSHIndex.add, if_neg hcond]
  show LSHIndex.mk 1 8 ((List.range 1).foldl
      (fun bks b => bks.set b (updBucket (bks.getD b [])
        (LSHIndex.extractBandHash ⟨1, 8, [[(0, ids)]]⟩ [0] b) 0)) [[(0, ids)]]) =
    ⟨1, 8, [[(0, ids ++ [0])]]⟩
  rw [show List.range 1 = [0] from rfl, List.foldl_cons, List.foldl_nil,
    extractBandHash_repeat]
  rfl

theorem acceptedFrom_replicate :
    ∀ (n m : Nat),
      acceptedFrom 1 8 (List.replicate n (LSHOp.addOp 0 [0])) m = m + n := by
  intro n
  induction n with
  | zero => intro m; simp [acceptedFrom]
  | succ n ih =>
    intro m
    rw [List.replicate_succ, acceptedFrom_cons_add,
      if_neg (by rw [requiredBytes]; simp), ih]
    omega

theorem repeatAdd_state :
    ∀ (n : Nat) (ids : List Nat),
      applyOps ⟨1, 8, [[(0, ids)]]⟩ (List.replicate n (LSHOp.addOp 0 [0])) =
        ⟨1, 8, [[(0, ids ++ List.replicate n 0)]]⟩ := by
  intro n
  induction n with
  | zero => intro ids; simp [applyOps]
  | succ n ih =>
    intro ids
    rw [List.replicate_succ]
    show applyOps (applyOp ⟨1, 8, [[(0, ids)]]⟩ (LSHOp.addOp 0 [0]))
      (List.replicate n (LSHOp.addOp 0 [0])) = _
    have hstep : applyOp ⟨1, 8, [[(0, ids)]]⟩ (LSHOp.addOp 0 [0]) =
        ⟨1, 8, [[(0, ids ++ [0])]]⟩ := add_repeat_step ids
    rw [hstep, ih (ids ++ [0]), List.append_assoc]
    rfl

/-- Counterexample to C7 as stated: after `2 ^ 32` accepted adds of the
same 1-byte signature on a fresh `B = 1, W = 8` index, the single band-0
posting list holds `2 ^ 32` entries, the `uint32_t` cast of its size in
`getStats` wraps, and `numSignatures` is reported as 0, not `2 ^ 32`. -/
theorem numSignatures_single (k : Nat) (ids : List Nat) :
    (LSHIndex.getStats ⟨1, 8, [[(k, ids)]]⟩).numSignatures =
      (ids.length % 2 ^ 32 + 0) % 2 ^ 32 := rfl

theorem spec_C7_counterexample :
    (applyOps (mkLSHIndex 1 8)
        (List.replicate (2 ^ 32) (LSHOp.addOp 0 [0]))).getStats.numSignatures = 0 ∧
    acceptedFrom 1 8 (List.replicate (2 ^ 32) (LSHOp.addOp 0 [0])) 0 = 2 ^ 32 ∧
    (0 : Nat) ≠ 2 ^ 32 := by
  have hsplit : (2 : Nat) ^ 32 = (2 ^ 32 - 1) + 1 := by norm_num
  have hfirst : applyOp (mkLSHIndex 1 8) (LSHOp.addOp 0 [0]) =
      ⟨1, 8, [[(0, [0])]]⟩ := rfl
  have hgen : ∀ n : Nat, applyOps (mkLSHIndex 1 8)
      (List.replicate (n + 1) (LSHOp.addOp 0 [0])) =
      ⟨1, 8, [[(0, [0] ++ List.replicate n 0)]]⟩ := by
    intro n
    rw [List.replicate_succ, applyOps_cons, hfirst, repeatAdd_state n [0]]
  have hlen : (([0] ++ List.replicate (2 ^ 32 - 1) 0) : List Nat).length = 2 ^ 32 := by
    rw [List.length_append, List.length_replicate]
    norm_num
  refine ⟨?_, ?_, by norm_num⟩
  · rw [hsplit, hgen (2 ^ 32 - 1), numSignatures_single, hlen]
    norm_num
  · rw [acceptedFrom_replicate]
    omega

/-! ### Exact-match recall machinery -/

theorem bitCountAux_zero : ∀ w, bitCountAux w 0 = 0 := by
  intro w
  induction w with
  | zero => rfl
  | succ w ih => simp [bitCountAux, ih]

theorem chunkLoop_self : ∀ (k : Nat) (a : List Nat), chunkLoop a a k = 0 := by
  intro k
  induction k with
  | zero => intro a; rfl
  | succ k ih =>
    intro a
    rw [chunkLoop, Nat.xor_self, popcount64, Nat.zero_mod, bitCountAux_zero, ih]

theorem byteLoop_self : ∀ (a : List Nat), byteLoop a a = 0 := by
  intro a
  induction a with
  | nil => rfl
  | cons x xs ih =>
    rw [byteLoop, Nat.xor_self, ih]
    rfl

theorem hamming_distance_self (a : List Nat) : hamming_distance a a = 0 := by
  show (chunkLoop a a (a.length / 8) + byteLoop (a.drop (8 * (a.length / 8)))
    (a.drop (8 * (a.length / 8)))) % 2 ^ 32 = 0
  rw [chunkLoop_self, byteLoop_self]
  decide

theorem bucketFind_updBucket_self (h id : Nat) :
    ∀ (bk : Bucket), ∃ ids, bucketFind (updBucket bk h id) h = some ids ∧ id ∈ ids := by
  intro bk
  induction bk with
  | nil => exact ⟨[id], by simp [updBucket, bucketFind], by simp⟩
  | cons kv rest ih =>
    obtain ⟨k, ids⟩ := kv
    rw [updBucket]
    by_cases hk : k = h
    · refine ⟨ids ++ [id], ?_, by simp⟩
      rw [if_pos hk, bucketFind, if_pos hk]
    · obtain ⟨ids', hfind, hmem⟩ := ih
      refine ⟨ids', ?_, hmem⟩
      rw [if_neg hk, bucketFind, if_neg hk, hfind]

theorem bucketFind_updBucket_mono (h2 id2 h id : Nat) :
    ∀ (bk : Bucket) (ids : List Nat), bucketFind bk h = some ids → id ∈ ids →
      ∃ ids', bucketFind (updBucket bk h2 id2) h = some ids' ∧ id ∈ ids' := by
  intro bk
  induction bk with
  | nil => intro ids hfind _; simp [bucketFind] at hfind
  | cons kv rest ih =>
    obtain ⟨k, kids⟩ := kv
    intro ids hfind hmem
    rw [bucketFind] at hfind
    rw [updBucket]
    by_cases hk : k = h2
    · rw [if_pos hk]
      by_cases hkh : k = h
      · rw [if_pos hkh] at hfind
        refine ⟨kids ++ [id2], ?_, ?_⟩
        · rw [bucketFind, if_pos hkh]
        · cases hfind
          exact List.mem_append.2 (Or.inl hmem)
      · rw [if_neg hkh] at hfind
        refine ⟨ids, ?_, hmem⟩
        rw [bucketFind, if_neg hkh, hfind]
    · rw [if_neg hk]
      by_cases hkh : k = h
      · rw [if_pos hkh] at hfind
        cases hfind
        exact ⟨kids, by rw [bucketFind, if_pos hkh], hmem⟩
      · rw [if_neg hkh] at hfind
        obtain ⟨ids', hfind', hmem'⟩ := ih ids hfind hmem
        exact ⟨ids', by rw [bucketFind, if_neg hkh, hfind'], hmem'⟩

/-- `id` is in some posting list selected by the probe in some band. -/
def isCandidate (σ : LSHIndex) (sig : List Nat) (id : Nat) : Prop :=
  ∃ b, b < σ.numBands ∧ ∃ ids,
    bucketFind (σ.buckets.getD b []) (σ.extractBandHash sig b) = some ids ∧ id ∈ ids

theorem mem_insertNew (acc : List Nat) (x id : Nat) :
    id ∈ insertNew acc x ↔ id ∈ acc ∨ id = x := by
  rw [insertNew]
  by_cases hx : x ∈ acc
  · rw [if_pos hx]
    constructor
    · exact Or.inl
    · rintro (h | rfl)
      · exact h
      · exact hx
  · rw [if_neg hx]
    simp

theorem mem_foldl_insertNew :
    ∀ (ids acc : List Nat) (id : Nat),
      id ∈ ids.foldl insertNew acc ↔ id ∈ acc ∨ id ∈ ids := by
  intro ids
  induction ids with
  | nil => intro acc id; simp
  | cons y ids ih =>
    intro acc id
    rw [List.foldl_cons, ih, mem_insertNew]
    constructor
    · rintro ((h | rfl) | h)
      · exact Or.inl h
      · exact Or.inr (by simp)
      · exact Or.inr (by simp [h])
    · rintro (h | h)
      · exact Or.inl (Or.inl h)
      · rcases List.mem_cons.1 h with rfl | h'
        · exact Or.inl (Or.inr rfl)
        · exact Or.inr h'

theorem mem_candFold (σ : LSHIndex) (sig : List Nat) :
    ∀ (L : List Nat) (acc : List Nat) (id : Nat),
      id ∈ L.foldl (candStep σ sig) acc ↔
        id ∈ acc ∨ ∃ b, b ∈ L ∧ ∃ ids,
          bucketFind (σ.buckets.getD b []) (σ.extractBandHash sig b) = some ids ∧
            id ∈ ids := by
  intro L
  induction L with
  | nil => intro acc id; simp
  | cons b L ih =>
    intro acc id
    rw [List.foldl_cons, ih]
    have hstep : id ∈ candStep σ sig acc b ↔
        id ∈ acc ∨ ∃ ids,
          bucketFind (σ.buckets.getD b []) (σ.extractBandHash sig b) = some ids ∧
            id ∈ ids := by
      rw [candStep]
      cases hf : bucketFind (σ.buckets.getD b []) (σ.extractBandHash sig b) with
      | none =>
        simp only []
        constructor
        · exact Or.inl
        · rintro (h | ⟨ids, hids, -⟩)
          · exact h
          · simp at hids
      | some ids =>
        rw [mem_foldl_insertNew]
        constructor
        · rintro (h | h)
          · exact Or.inl h
          · exact Or.inr ⟨ids, rfl, h⟩
        · rintro (h | ⟨ids', hids', hm⟩)
          · exact Or.inl h
          · injection hids' with heq
            subst heq
            exact Or.inr hm
    rw [hstep]
    constructor
    · rintro ((h | ⟨ids, hids, hm⟩) | ⟨b', hb', ids, hids, hm⟩)
      · exact Or.inl h
      · exact Or.inr ⟨b, by simp, ids, hids, hm⟩
      · exact Or.inr ⟨b', by simp [hb'], ids, hids, hm⟩
    · rintro (h | ⟨b', hb', ids, hids, hm⟩)
      · exact Or.inl (Or.inl h)
      · rcases List.mem_cons.1 hb' with rfl | hb''
        · exact Or.inl (Or.inr ⟨ids, hids, hm⟩)
        · exact Or.inr ⟨b', hb'', ids, hids, hm⟩

theorem mem_findCandidates_of (σ : LSHIndex) (sig : List Nat)
    (hlong : requiredBytes σ.numBands σ.bitsPerBand ≤ sig.length)
    (id : Nat) (hc : isCandidate σ sig id) : id ∈ σ.findCandidates sig := by
  rw [LSHIndex.findCandidates, if_neg (by omega), mem_candFold]
  obtain ⟨b, hb, ids, hfind, hmem⟩ := hc
  exact Or.inr ⟨b, List.mem_range.2 hb, ids, hfind, hmem⟩

theorem isCandidate_add_self (σ : LSHIndex) (id : Nat) (s : List Nat)
    (hB : 0 < σ.numBands) (hlen : σ.buckets.length = σ.numBands)
    (hlong : requiredBytes σ.numBands σ.bitsPerBand ≤ s.length) :
    isCandidate (σ.add id s) s id := by
  have hw : (σ.add id s).bitsPerBand = σ.bitsPerBand := (add_numBands σ id s).2.1
  have hnb : (σ.add id s).numBands = σ.numBands := (add_numBands σ id s).1
  refine ⟨0, by omega, ?_⟩
  rw [extractBandHash_congr (σ.add id s) σ s 0 hw]
  rw [LSHIndex.add, if_neg (by omega)]
  show ∃ ids, bucketFind
      (((List.range σ.numBands).foldl
        (fun bks b' => bks.set b' (updBucket (bks.getD b' []) (σ.extractBandHash s b') id))
        σ.buckets).getD 0 []) (σ.extractBandHash s 0) = some ids ∧ id ∈ ids
  rw [foldl_updBands_getD id _ (List.range σ.numBands) σ.buckets 0
    (List.nodup_range _) (by omega), if_pos (List.mem_range.2 hB)]
  exact bucketFind_updBucket_self _ id _

theorem isCandidate_add_mono (σ : LSHIndex) (id2 : Nat) (s2 : List Nat)
    (sig : List Nat) (id : Nat) (hlen : σ.buckets.length = σ.numBands)
    (hc : isCandidate σ sig id) : isCandidate (σ.add id2 s2) sig id := by
  obtain ⟨b, hb, ids, hfind, hmem⟩ := hc
  have hw : (σ.add id2 s2).bitsPerBand = σ.bitsPerBand := (add_numBands σ id2 s2).2.1
  have hnb : (σ.add id2 s2).numBands = σ.numBands := (add_numBands σ id2 s2).1
  refine ⟨b, by omega, ?_⟩
  rw [extractBandHash_congr (σ.add id2 s2) σ sig b hw]
  rw [LSHIndex.add]
  by_cases hshort : s2.length < requiredBytes σ.numBands σ.bitsPerBand
  · rw [if_pos hshort]
    exact ⟨ids, hfind, hmem⟩
  · rw [if_neg hshort]
    show ∃ ids', bucketFind
        (((List.range σ.numBands).foldl
          (fun bks b' =>
            bks.set b' (updBucket (bks.getD b' []) (σ.extractBandHash s2 b') id2))
          σ.buckets).getD b []) (σ.extractBandHash sig b) = some ids' ∧ id ∈ ids'
    rw [foldl_updBands_getD id2 _ (List.range σ.numBands) σ.buckets b
      (List.nodup_range _) (by omega), if_pos (List.mem_range.2 hb)]
    exact bucketFind_updBucket_mono _ id2 _ id _ ids hfind hmem

/-- The registry's sequence of further `add` calls after a given one. -/
def addAll (σ : LSHIndex) (l : List (Nat × List Nat)) : LSHIndex :=
  l.foldl (fun t p => t.add p.1 p.2) σ

theorem addAll_facts :
    ∀ (l : List (Nat × List Nat)) (σ : LSHIndex), σ.buckets.length = σ.numBands →
      (addAll σ l).numBands = σ.numBands ∧
        (addAll σ l).bitsPerBand = σ.bitsPerBand ∧
        (addAll σ l).buckets.length = σ.numBands ∧
        (∀ sig id, isCandidate σ sig id → isCandidate (addAll σ l) sig id) := by
  intro l
  induction l with
  | nil => intro σ hlen; exact ⟨rfl, rfl, hlen, fun _ _ h => h⟩
  | cons p rest ih =>
    intro σ hlen
    have hstep := add_numBands σ p.1 p.2
    have hlen' : (σ.add p.1 p.2).buckets.length = (σ.add p.1 p.2).numBands := by omega
    have := ih (σ.add p.1 p.2) hlen'
    rw [show addAll σ (p :: rest) = addAll (σ.add p.1 p.2) rest from rfl]
    refine ⟨by omega, by omega, by omega, ?_⟩
    intro sig id hc
    exact this.2.2.2 sig id (isCandidate_add_mono σ p.1 p.2 sig id hlen hc)

/-- C4 (exact-match recall): if a signature `s` of length at least
`requiredBytes` was added under `id` to an index with at least one band,
then — after any further adds — querying with probe `s` at threshold 0
returns the entry `(id, 0)`: identical bytes give identical band-hashes
in every band, so `id` is a candidate, and verification against
`store[id] = s` yields distance 0. -/
theorem spec_C4_exact_match_recall (σ : LSHIndex) (id : Nat) (s : List Nat)
    (rest : List (Nat × List Nat)) (store : List (List Nat))
    (hB : 0 < σ.numBands) (hlen : σ.buckets.length = σ.numBands)
    (hlong : requiredBytes σ.numBands σ.bitsPerBand ≤ s.length)
    (hid : id < store.length) (hstore : store.getD id [] = s) :
    (id, 0) ∈ (addAll (σ.add id s) rest).querySimilar s store 0 := by
  have hstep := add_numBands σ id s
  have hlen' : (σ.add id s).buckets.length = (σ.add id s).numBands := by omega
  have hfacts := addAll_facts rest (σ.add id s) hlen'
  have hcand : isCandidate (addAll (σ.add id s) rest) s id :=
    hfacts.2.2.2 s id (isCandidate_add_self σ id s hB hlen hlong)
  have hreq : requiredBytes (addAll (σ.add id s) rest).numBands
      (addAll (σ.add id s) rest).bitsPerBand = requiredBytes σ.numBands σ.bitsPerBand := by
    rw [hfacts.1, hfacts.2.1, hstep.1, hstep.2.1]
  have hmemc : id ∈ (addAll (σ.add id s) rest).findCandidates s :=
    mem_findCandidates_of _ s (by omega) id hcand
  have hd : hamming_distance (s.take (min s.length (store.getD id []).length))
      ((store.getD id []).take (min s.length (store.getD id []).length)) = 0 := by
    rw [hstore, Nat.min_self, List.take_length, hamming_distance_self]
  rw [LSHIndex.querySimilar]
  rw [(perm_sortByDist _).mem_iff]
  rw [mem_foldl_queryStep]
  exact Or.inr ⟨id, hmemc, hid, by rw [hd], by rw [hd]⟩

/-- Witness for C4: `B = 1, W = 8`, one add, no further adds. -/
theorem spec_C4_exact_match_recall_witness :
    (0, 0) ∈ (addAll ((mkLSHIndex 1 8).add 0 [5]) []).querySimilar [5] [[5]] 0 :=
  spec_C4_exact_match_recall (mkLSHIndex 1 8) 0 [5] [] [[5]]
    (by decide) (by decide) (by decide) (by decide) (by decide)

/-! ### Handle registry (`addon.cc`)

The process-wide maps `g_lshIndexes`, `g_lshSignatures` and the counter
`g_nextHandle` are modelled as a `Registry` value threaded through the
operations; each operation returns the registry after the call
(unchanged when a JavaScript exception is thrown before any mutation)
together with its result.  Arguments are already well-typed here, so the
`type` error kind of the boundary cannot arise; `invalid-handle` is the
`Napi::Error` thrown when the handle is not in `g_lshIndexes`. -/

/-- Typed error kinds of the addon layer relevant to handle-keyed calls. -/
inductive AddonError where
  | invalidHandle
  deriving DecidableEq

/-- The process-wide registry state. -/
structure Registry where
  indexes : List (Nat × LSHIndex)
  sigStores : List (Nat × List (List Nat))
  nextHandle : Nat
  deriving DecidableEq

/-- `map.find(h)` on a handle-keyed map. -/
def alookup {α : Type} : List (Nat × α) → Nat → Option α
  | [], _ => none
  | (k, v) :: rest, h => if k = h then some v else alookup rest h

/-- `map[h] = v`: update in place, or insert when absent. -/
def aset {α : Type} : List (Nat × α) → Nat → α → List (Nat × α)
  | [], h, v => [(h, v)]
  | (k, v0) :: rest, h, v => if k = h then (k, v) :: rest else (k, v0) :: aset rest h v

/-- `map.erase(h)`: drop the entry with key `h`, if any. -/
def aerase {α : Type} : List (Nat × α) → Nat → List (Nat × α)
  | [], _ => []
  | (k, v) :: rest, h => if k = h then rest else (k, v) :: aerase rest h

/-- `createLSHIndex(B, W)`: mint `g_nextHandle`, install a fresh index
and an empty signature store. -/
def createLSHIndex (r : Registry) (numB w : Nat) : Registry × Nat :=
  (⟨aset r.indexes r.nextHandle (mkLSHIndex numB w),
    aset r.sigStores r.nextHandle [], r.nextHandle + 1⟩, r.nextHandle)

/-- `lshAdd(handle, signature)`: unknown handles throw invalid-handle;
otherwise the ID is `static_cast<uint32_t>(sigs.size())` — the store size
truncated to 32 bits (`% 2 ^ 32`) — the copied bytes are appended, and
`LSHIndex::add` is called (`g_lshSignatures[handle]` uses `operator[]`,
defaulting to an empty store). -/
def lshAdd (r : Registry) (h : Nat) (sig : List Nat) :
    Registry × Except AddonError Nat :=
  match alookup r.indexes h with
  | none => (r, .error .invalidHandle)
  | some idx =>
    let store := (alookup r.sigStores h).getD []
    let id := store.length % 2 ^ 32
    (⟨aset r.indexes h (idx.add id sig), aset r.sigStores h (store ++ [sig]),
      r.nextHandle⟩, .ok id)

/-- `lshAddBatch(handle, signaturesArray)`: the sequential iteration of
the `lshAdd` body over the array, with the same
`static_cast<uint32_t>(sigs.size())` truncation on each minted ID. -/
def lshAddBatch (r : Registry) (h : Nat) (sigs : List (List Nat)) :
    Registry × Except AddonError (List Nat) :=
  match alookup r.indexes h with
  | none => (r, .error .invalidHandle)
  | some idx =>
    let store := (alookup r.sigStores h).getD []
    let st := sigs.foldl
      (fun (st : LSHIndex × List (List Nat) × List Nat) sig =>
        (st.1.add (st.2.1.length % 2 ^ 32) sig, st.2.1 ++ [sig],
          st.2.2 ++ [st.2.1.length % 2 ^ 32]))
      (idx, store, [])
    (⟨aset r.indexes h st.1, aset r.sigStores h st.2.1, r.nextHandle⟩, .ok st.2.2)

/-- `lshQuery(handle, signature, threshold)`. -/
def lshQuery (r : Registry) (h : Nat) (sig : List Nat) (thr : Nat) :
    Registry × Except AddonError (List (Nat × Nat)) :=
  match alookup r.indexes h, alookup r.sigStores h with
  | some idx, some store => (r, .ok (idx.querySimilar sig store thr))
  | _, _ => (r, .error .invalidHandle)

/-- `lshGetCandidates(handle, signature)`. -/
def lshGetCandidates (r : Registry) (h : Nat) (sig : List Nat) :
    Registry × Except AddonError (List Nat) :=
  match alookup r.indexes h with
  | none => (r, .error .invalidHandle)
  | some idx => (r, .ok (idx.findCandidates sig))

/-- `lshGetStats(handle)`. -/
def lshGetStats (r : Registry) (h : Nat) : Registry × Except AddonError Stats :=
  match alookup r.indexes h with
  | none => (r, .error .invalidHandle)
  | some idx => (r, .ok idx.getStats)

/-- `lshDestroy(handle)`: erases the handle from both maps and returns
`undefined`; the handle is never validated. -/
def lshDestroy (r : Registry) (h : Nat) : Registry × Except AddonError Unit :=
  (⟨aerase r.indexes h, aerase r.sigStores h, r.nextHandle⟩, .ok ())

theorem alookup_aset_self {α : Type} (h : Nat) (v : α) :
    ∀ (l : List (Nat × α)), alookup (aset l h v) h = some v := by
  intro l
  induction l with
  | nil => simp [aset, alookup]
  | cons kv rest ih =>
    obtain ⟨k, v0⟩ := kv
    rw [aset]
    by_cases hk : k = h
    · rw [if_pos hk, alookup, if_pos hk]
    · rw [if_neg hk, alookup, if_neg hk, ih]

theorem aerase_of_none {α : Type} (h : Nat) :
    ∀ (l : List (Nat × α)), alookup l h = none → aerase l h = l := by
  intro l
  induction l with
  | nil => intro _; rfl
  | cons kv rest ih =>
    obtain ⟨k, v⟩ := kv
    intro hnone
    rw [alookup] at hnone
    by_cases hk : k = h
    · rw [if_pos hk] at hnone; cases hnone
    · rw [if_neg hk] at hnone
      rw [aerase, if_neg hk, ih hnone]

theorem getD_concat_length (l : List (List Nat)) (x : List Nat) :
    (l ++ [x]).getD l.length [] = x := by
  rw [List.getD_eq_getElem _ _ (by simp)]
  exact List.getElem_concat_length l x _ rfl _

/-- C6 (amended with the 32-bit bound): on a live handle whose store
holds fewer than `2 ^ 32 - 1` signatures, `lshAdd` returns the store
size before the call as the minted ID (`static_cast<uint32_t>` is the
identity below `2 ^ 32`), appends the passed bytes at exactly that
position, and a subsequent `lshAdd` on the same handle returns the next
ID — with no length condition on the signature, so this holds also for
signatures shorter than `requiredBytes`. -/
theorem spec_C6_lshAdd_ids (r : Registry) (h : Nat) (s1 s2 : List Nat)
    (idx : LSHIndex) (hlive : alookup r.indexes h = some idx)
    (hsize : ((alookup r.sigStores h).getD []).length + 1 < 2 ^ 32) :
    (lshAdd r h s1).2 = .ok ((alookup r.sigStores h).getD []).length ∧
    alookup (lshAdd r h s1).1.sigStores h =
      some ((alookup r.sigStores h).getD [] ++ [s1]) ∧
    ((alookup (lshAdd r h s1).1.sigStores h).getD []).getD
      ((alookup r.sigStores h).getD []).length [] = s1 ∧
    (lshAdd (lshAdd r h s1).1 h s2).2 =
      .ok (((alookup r.sigStores h).getD []).length + 1) := by
  have hm1 : ((alookup r.sigStores h).getD []).length % 2 ^ 32 =
      ((alookup r.sigStores h).getD []).length := Nat.mod_eq_of_lt (by omega)
  have h1 : lshAdd r h s1 =
      (⟨aset r.indexes h
          (idx.add (((alookup r.sigStores h).getD []).length % 2 ^ 32) s1),
        aset r.sigStores h ((alookup r.sigStores h).getD [] ++ [s1]),
        r.nextHandle⟩, .ok (((alookup r.sigStores h).getD []).length % 2 ^ 32)) := by
    rw [lshAdd, hlive]
  rw [hm1] at h1
  have hstore1 : alookup (lshAdd r h s1).1.sigStores h =
      some ((alookup r.sigStores h).getD [] ++ [s1]) := by
    rw [h1]
    exact alookup_aset_self _ _ _
  refine ⟨by rw [h1], hstore1, ?_, ?_⟩
  · rw [hstore1]
    exact getD_concat_length _ _
  · have hlive1 : alookup (lshAdd r h s1).1.indexes h =
        some (idx.add ((alookup r.sigStores h).getD []).length s1) := by
      rw [h1]
      exact alookup_aset_self _ _ _
    rw [lshAdd, hlive1, hstore1]
    simp [List.length_append]
    omega

/-- Witness for C6 on a live one-handle registry; the first signature is
shorter than `requiredBytes = 4` of the `B = 2, W = 16` index. -/
theorem spec_C6_lshAdd_ids_witness :
    (lshAdd ⟨[(1, mkLSHIndex 2 16)], [(1, [])], 2⟩ 1 [9]).2 =
      .ok ((alookup ([(1, [])] : List (Nat × List (List Nat))) 1).getD []).length ∧
    alookup (lshAdd ⟨[(1, mkLSHIndex 2 16)], [(1, [])], 2⟩ 1 [9]).1.sigStores 1 =
      some ((alookup ([(1, [])] : List (Nat × List (List Nat))) 1).getD [] ++ [[9]]) ∧
    ((alookup (lshAdd ⟨[(1, mkLSHIndex 2 16)], [(1, [])], 2⟩ 1 [9]).1.sigStores 1).getD
        []).getD ((alookup ([(1, [])] : List (Nat × List (List Nat))) 1).getD []).length
      [] = [9] ∧
    (lshAdd (lshAdd ⟨[(1, mkLSHIndex 2 16)], [(1, [])], 2⟩ 1 [9]).1 1 [1, 2, 3, 4]).2 =
      .ok (((alookup ([(1, [])] : List (Nat × List (List Nat))) 1).getD []).length + 1) :=
  spec_C6_lshAdd_ids ⟨[(1, mkLSHIndex 2 16)], [(1, [])], 2⟩ 1 [9] [1, 2, 3, 4]
    (mkLSHIndex 2 16) (by decide) (by decide)

/-- Counterexample to C6 as stated: on a handle whose store already
holds `2 ^ 32` signatures (reachable by `2 ^ 32` `lshAdd` calls), the C
code's `static_cast<uint32_t>(sigs.size())` wraps: the minted ID is 0,
not the store size `2 ^ 32`, so the IDs are neither equal to the store
size nor strictly increasing. -/
theorem lshAdd_ok_id (r : Registry) (h : Nat) (sig : List Nat) (idx : LSHIndex)
    (store : List (List Nat)) (hlive : alookup r.indexes h = some idx)
    (hstore : alookup r.sigStores h = some store) :
    (lshAdd r h sig).2 = .ok (store.length % 2 ^ 32) := by
  rw [lshAdd, hlive, hstore]
  rfl

theorem spec_C6_counterexample :
    (lshAdd ⟨[(1, mkLSHIndex 1 8)], [(1, List.replicate (2 ^ 32) [])], 2⟩ 1 [5]).2 =
      .ok 0 ∧
    ((alookup ([(1, List.replicate (2 ^ 32) ([] : List Nat))] :
        List (Nat × List (List Nat))) 1).getD []).length = 2 ^ 32 ∧
    (0 : Nat) ≠ 2 ^ 32 := by
  have hstore : alookup ([(1, List.replicate (2 ^ 32) ([] : List Nat))] :
      List (Nat × List (List Nat))) 1 = some (List.replicate (2 ^ 32) []) := rfl
  have h1 := lshAdd_ok_id ⟨[(1, mkLSHIndex 1 8)], [(1, List.replicate (2 ^ 32) [])], 2⟩
    1 [5] (mkLSHIndex 1 8) (List.replicate (2 ^ 32) []) rfl rfl
  refine ⟨?_, ?_, by norm_num⟩
  · rw [h1, List.length_replicate]
    norm_num
  · rw [hstore, Option.getD_some, List.length_replicate]

/-- C8 (amended): with a handle that names no live index, the five
operations `lshAdd`, `lshAddBatch`, `lshQuery`, `lshGetCandidates` and
`lshGetStats` fail with the invalid-handle error and leave the registry
unchanged; `lshDestroy`, by contrast, never validates the handle — on an
unknown handle it is a silent no-op that leaves the registry unchanged
and reports success. -/
theorem spec_C8_invalid_handle (r : Registry) (h thr : Nat) (sig : List Nat)
    (sigs : List (List Nat)) (hdead : alookup r.indexes h = none)
    (hdead2 : alookup r.sigStores h = none) :
    lshAdd r h sig = (r, .error .invalidHandle) ∧
    lshAddBatch r h sigs = (r, .error .invalidHandle) ∧
    lshQuery r h sig thr = (r, .error .invalidHandle) ∧
    lshGetCandidates r h sig = (r, .error .invalidHandle) ∧
    lshGetStats r h = (r, .error .invalidHandle) ∧
    lshDestroy r h = (r, .ok ()) := by
  refine ⟨?_, ?_, ?_, ?_, ?_, ?_⟩
  · rw [lshAdd, hdead]
  · rw [lshAddBatch, hdead]
  · rw [lshQuery, hdead]
  · rw [lshGetCandidates, hdead]
  · rw [lshGetStats, hdead]
  · rw [lshDestroy, aerase_of_none h r.indexes hdead, aerase_of_none h r.sigStores hdead2]

/-- Witness for the amended C8 on a registry holding one unrelated live
handle. -/
theorem spec_C8_invalid_handle_witness :
    lshAdd ⟨[(1, mkLSHIndex 1 8)], [(1, [])], 2⟩ 5 [3] =
      (⟨[(1, mkLSHIndex 1 8)], [(1, [])], 2⟩, .error .invalidHandle) ∧
    lshAddBatch ⟨[(1, mkLSHIndex 1 8)], [(1, [])], 2⟩ 5 [[3]] =
      (⟨[(1, mkLSHIndex 1 8)], [(1, [])], 2⟩, .error .invalidHandle) ∧
    lshQuery ⟨[(1, mkLSHIndex 1 8)], [(1, [])], 2⟩ 5 [3] 0 =
      (⟨[(1, mkLSHIndex 1 8)], [(1, [])], 2⟩, .error .invalidHandle) ∧
    lshGetCandidates ⟨[(1, mkLSHIndex 1 8)], [(1, [])], 2⟩ 5 [3] =
      (⟨[(1, mkLSHIndex 1 8)], [(1, [])], 2⟩, .error .invalidHandle) ∧
    lshGetStats ⟨[(1, mkLSHIndex 1 8)], [(1, [])], 2⟩ 5 =
      (⟨[(1, mkLSHIndex 1 8)], [(1, [])], 2⟩, .error .invalidHandle) ∧
    lshDestroy ⟨[(1, mkLSHIndex 1 8)], [(1, [])], 2⟩ 5 =
      (⟨[(1, mkLSHIndex 1 8)], [(1, [])], 2⟩, .ok ()) :=
  spec_C8_invalid_handle ⟨[(1, mkLSHIndex 1 8)], [(1, [])], 2⟩ 5 0 [3] [[3]]
    (by decide) (by decide)

/-- Counterexample to C8 as stated: `lshDestroy` on the unknown handle 5
of an empty registry does not fail with an invalid-handle error — it
returns success (the source never checks the handle in `LSHDestroy`). -/
theorem spec_C8_counterexample :
    lshDestroy ⟨[], [], 1⟩ 5 = (⟨[], [], 1⟩, .ok ()) ∧
    (lshDestroy ⟨[], [], 1⟩ 5).2 ≠ Except.error AddonError.invalidHandle := by
  refine ⟨rfl, ?_⟩
  rw [show (lshDestroy ⟨[], [], 1⟩ 5).2 = Except.ok () from rfl]
  exact fun hcontra => Except.noConfusion hcontra

end SigCluster
